import Mathlib

/-!
# Verification of the dialectical-loop orchestrator

Shallow embedding of the core pure logic of `scripts/dialectical_loop.py`,
`scripts/llm_client.py` and `scripts/context_builder.py`, together with
theorems settling the specification claims about them.

Modelling conventions:
* Python strings are modelled as `List Char` (ASCII scope) or Lean `String`
  for opaque message payloads.
* Python regular expressions used by the code are line-anchored (`(?m)^...$`);
  they are modelled line-by-line after splitting on `'\n'`.  The `\s` class is
  modelled as the six ASCII whitespace characters; the exotic case of a `\s*`
  run spanning a newline inside a single match is outside the model.
* Impure helpers (LLM calls, subprocinvocations, file-system scans) are
  modelled as oracle inputs to the respective step functions.
-/

namespace Dialectic

/-- ASCII whitespace as matched by Python's regex class `\s` (and, on ASCII
    text, by `str.strip` / `str.isspace`). -/
def isReWs (c : Char) : Bool :=
  c = ' ' || c = '\t' || c = '\n' || c = '\r' || c = '\x0c' || c = '\x0b'

/-- Strip leading and trailing whitespace, Python `str.strip()` on ASCII. -/
def trimWs (l : List Char) : List Char :=
  ((l.dropWhile isReWs).reverse.dropWhile isReWs).reverse

/-- Strip leading whitespace only, Python `str.lstrip()` on ASCII. -/
def trimLeftWs (l : List Char) : List Char :=
  l.dropWhile isReWs

/-- Split a text into its `'\n'`-separated lines (the line structure seen by
    `(?m)` anchors of the `re` module, which treat only `'\n'` as a line
    separator). -/
def splitNl : List Char → List (List Char)
  | [] => [[]]
  | c :: rest =>
    if c = '\n' then [] :: splitNl rest
    else
      match splitNl rest with
      | [] => [[c]]
      | l :: ls => (c :: l) :: ls

/-- `stripPfx p l` removes the prefix `p` from `l`, failing when `p` is not a
    prefix of `l`. -/
def stripPfx : List Char → List Char → Option (List Char)
  | [], l => some l
  | _ :: _, [] => none
  | p :: ps, c :: cs => if c = p then stripPfx ps cs else none

/-! ## `_spec_progress` (dialectical_loop.py, lines 222-273)

The checklist pattern is `(?m)^\s*[-*]\s*\[(?P<state>[ xX])\]\s*(?P<body>.+?)\s*$`.
On a single line this means: optional whitespace, a `-` or `*` bullet, optional
whitespace, `[`, a state character among space/`x`/`X`, `]`, and a non-empty
remainder whose trimmed form is the captured (and then `.strip()`-ed) body. -/

/-- Match one line against the markdown-checklist pattern, returning the state
    character and the trimmed item body. -/
def checklistLine (line : List Char) : Option (Char × List Char) :=
  match line.dropWhile isReWs with
  | [] => none
  | b :: r =>
    if b = '-' ∨ b = '*' then
      match r.dropWhile isReWs with
      | '[' :: st :: ']' :: rem =>
        if (st = ' ' ∨ st = 'x' ∨ st = 'X') ∧ rem ≠ [] then
          some (st, trimWs rem)
        else none
      | _ => none
    else none

/-- All checklist items of a document, in order. -/
def checklistItems (t : List Char) : List (Char × List Char) :=
  (splitNl t).filterMap checklistLine

/-- Match one line against `(?mi)^\s*status\s*:\s*complete\b`. -/
def markerLine (line : List Char) : Bool :=
  let l := (line.map Char.toLower).dropWhile isReWs
  match stripPfx ("status".toList) l with
  | none => false
  | some l1 =>
    match stripPfx [':'] (l1.dropWhile isReWs) with
    | none => false
    | some l2 =>
      match stripPfx ("complete".toList) (l2.dropWhile isReWs) with
      | none => false
      | some l3 =>
        match l3 with
        | [] => true
        | c :: _ => !(c.isAlphanum || c = '_')

/-- Whether some line of the document carries the explicit completion marker. -/
def markerFound (t : List Char) : Bool :=
  (splitNl t).any markerLine

/-- Result dictionary of `_spec_progress`. -/
structure SpecProgress where
  mode : String
  complete : Bool
  totalItems : Nat
  remainingItems : List (List Char)
  hint : Option String
deriving DecidableEq, Repr

/-- A checklist state counts as checked when `state.strip().lower() == "x"`,
    i.e. exactly for `'x'` and `'X'`. -/
def stateChecked (st : Char) : Bool := st = 'x' || st = 'X'

/-- `_spec_progress` (dialectical_loop.py lines 222-273): derive the completion
    state of the specification document. -/
def specProgress (specText : List Char) : SpecProgress :=
  let ms := checklistItems specText
  if ms.isEmpty then
    if markerFound specText then
      { mode := "marker", complete := true, totalItems := 0,
        remainingItems := [], hint := none }
    else
      { mode := "unknown", complete := false, totalItems := 0,
        remainingItems := [],
        hint := some ("Cannot determine completion from SPECIFICATION.md. " ++
          "Add markdown checkboxes (- [ ] / - [x]) or add a line " ++
          "\x27Status: COMPLETE\x27 when finished.") }
  else
    let remaining := (ms.filter (fun m => !stateChecked m.1)).map (·.2)
    { mode := "checklist", complete := remaining.isEmpty,
      totalItems := ms.length, remainingItems := remaining, hint := none }

/-! ### Claims C4 and C10 -/

/-- C4: specification-progress derivation is a total, deterministic function of
    the document text; identical text gives identical results; a text with at
    least one checklist item and zero unchecked items derives `complete = true`;
    a text with neither a checklist item nor a completion-marker line derives
    `complete = false` with `mode = "unknown"`. -/
theorem spec_progress_total_deterministic (t : List Char) :
    (specProgress t = specProgress t)
    ∧ (checklistItems t ≠ [] →
        (∀ m ∈ checklistItems t, stateChecked m.1 = true) →
        (specProgress t).complete = true)
    ∧ (checklistItems t = [] → markerFound t = false →
        (specProgress t).complete = false ∧ (specProgress t).mode = "unknown") := by
  refine ⟨rfl, ?_, ?_⟩
  · intro hne hall
    have hfilter : (checklistItems t).filter (fun m => !stateChecked m.1) = [] := by
      apply List.filter_eq_nil_iff.mpr
      intro m hm
      simp [hall m hm]
    simp [specProgress, List.isEmpty_iff, hne, hfilter]
  · intro hnil hm
    simp [specProgress, List.isEmpty_iff, hnil, hm]

/-- Witness for C4 at concrete documents. -/
theorem spec_progress_total_deterministic_witness :
    (specProgress ("- [x] a".toList)).complete = true
    ∧ (specProgress ("hello world".toList)).complete = false := by
  constructor
  · exact (spec_progress_total_deterministic ("- [x] a".toList)).2.1
      (by decide) (by decide)
  · exact ((spec_progress_total_deterministic ("hello world".toList)).2.2
      (by decide) (by decide)).1

/-- C10: checklist detection takes precedence over the explicit completion
    marker: any document with at least one checkbox is judged in `"checklist"`
    mode, completeness being equivalent to all its boxes being checked
    (any `Status: COMPLETE` line is ignored); in particular the concrete
    document with one unchecked box and a `Status: COMPLETE` line derives
    `complete = false`. -/
theorem checklist_precedes_marker :
    (∀ t : List Char, checklistItems t ≠ [] →
      (specProgress t).mode = "checklist"
      ∧ ((specProgress t).complete = true ↔
          ∀ m ∈ checklistItems t, stateChecked m.1 = true))
    ∧ checklistItems ("- [ ] item\nStatus: COMPLETE".toList) ≠ []
    ∧ markerFound ("- [ ] item\nStatus: COMPLETE".toList) = true
    ∧ (specProgress ("- [ ] item\nStatus: COMPLETE".toList)).complete = false
    ∧ (specProgress ("- [ ] item\nStatus: COMPLETE".toList)).mode = "checklist" := by
  refine ⟨?_, by decide, by decide, by decide, by decide⟩
  intro t hne
  constructor
  · simp [specProgress, List.isEmpty_iff, hne]
  · constructor
    · intro hc m hm
      by_contra hnc
      have hmem : m ∈ (checklistItems t).filter (fun m => !stateChecked m.1) := by
        simp [List.mem_filter, hm]
        simpa using hnc
      have : (checklistItems t).filter (fun m => !stateChecked m.1) ≠ [] := by
        intro h
        rw [h] at hmem
        exact absurd hmem (List.not_mem_nil m)
      simp [specProgress, List.isEmpty_iff, hne] at hc
      exact this (by simpa [List.map_eq_nil_iff] using hc)
    · intro hall
      have hfilter : (checklistItems t).filter (fun m => !stateChecked m.1) = [] := by
        apply List.filter_eq_nil_iff.mpr
        intro m hm
        simp [hall m hm]
      simp [specProgress, List.isEmpty_iff, hne, hfilter]

/-- Witness for C10 at a concrete two-item document. -/
theorem checklist_precedes_marker_witness :
    (specProgress ("- [x] a\n- [ ] b\nStatus: COMPLETE".toList)).mode = "checklist" := by
  exact ((checklist_precedes_marker.1 ("- [x] a\n- [ ] b\nStatus: COMPLETE".toList))
    (by decide)).1


/-! ## The main loop of `dialectical_loop.py::main` (lines 1290-2452)

One iteration of the `while turn <= max_turns` loop is modelled as a step
function over an explicit loop state.  Everything the iteration obtains from
the outside world (LLM responses, file-write results, command exit codes, the
re-read specification file) enters through an `IterEnv` oracle record. -/

/-- The command-line options that steer the loop control flow. -/
structure LoopArgs where
  maxTurns : Nat
  specFile : String
  fastFail : Bool
  maxFastFailRetries : Nat
  noAutoVerify : Bool
  verifyCmd : List String
deriving DecidableEq, Repr

/-- `max_skips_without_coach = max(50, max_turns * 10)` (line 1300). -/
def maxSkipsWithoutCoach (args : LoopArgs) : Nat :=
  max 50 (args.maxTurns * 10)

/-- The mutable loop variables of `main` that drive control flow. -/
structure LoopState where
  turn : Nat
  skippedWithoutCoach : Nat
  lastSkipReason : String
  lastFastFailOutputs : String
  lastFastFailErrors : List String
  fastFailRetries : Nat
  zeroEditsStreak : Nat
  feedback : String
deriving DecidableEq, Repr

/-- Initial loop state (lines 1291-1306). -/
def initState : LoopState :=
  { turn := 1, skippedWithoutCoach := 0, lastSkipReason := "",
    lastFastFailOutputs := "", lastFastFailErrors := [], fastFailRetries := 0,
    zeroEditsStreak := 0, feedback := "No feedback yet. This is the first turn." }

/-- Environment oracle for one iteration: the outcomes of every impure call
    the iteration makes, in program order. -/
structure IterEnv where
  /-- the Player LLM call returned non-empty output -/
  playerResponded : Bool
  /-- the Player output parsed as JSON (after at most one in-turn repair) -/
  playerParsed : Bool
  /-- `apply_file_ops` applied at least one operation -/
  fileOpsApplied : Bool
  /-- at least one file from `player_data["files"]` was saved successfully -/
  filesChanged : Bool
  /-- the `file_write_errors` accumulated by the guardrail/validation/save steps -/
  writeErrors : List String
  /-- `player_data["commands_to_run"]` is non-empty -/
  hasCommands : Bool
  /-- the `verification_errors` collected from failing verification commands -/
  verificationErrors : List String
  /-- the accumulated `command_outputs` text -/
  commandOutputs : String
  /-- result of `summarize_command_outputs(command_outputs)` (impure helper) -/
  commandOutputsSummary : String
  /-- the Coach LLM call returned non-empty output -/
  coachResponded : Bool
  /-- status and feedback extracted from the first Coach JSON parse -/
  coachParsed : Option (String × String)
  /-- whether the single in-turn Coach repair parse succeeded -/
  coachRepairParsed : Bool
  /-- content of the specification file when re-read after an approval -/
  specText : String
  /-- the Architect replan produced a non-empty revised specification -/
  replanOk : Bool
deriving DecidableEq, Repr

/-- Result of one loop iteration: either the run reports a final status and
    breaks, or the loop continues with an updated state. -/
inductive StepResult
  | terminated (status message : String)
  | next (st : LoopState)
deriving DecidableEq, Repr

/-- `truncate_output` (dialectical_loop.py lines 908-920). -/
def truncateOutput (output : String) (maxChars : Nat := 2000) : String :=
  if output = "" ∨ output.length ≤ maxChars then output
  else
    let headSize := maxChars / 3
    let tailSize := maxChars - headSize
    output.take headSize ++ "\n... [OUTPUT TRUNCATED " ++
      toString (output.length - maxChars) ++ " CHARS] ...\n" ++
      output.takeRight tailSize

/-- `"\n".join(f"- {e}" for e in errs)`. -/
def joinDash (errs : List String) : String :=
  String.intercalate "\n" (errs.map (fun e => "- " ++ e))

def invalidPlayerJsonFeedback : String :=
  "Your last response was not valid JSON. Response must be a valid JSON object. " ++
  "Return ONLY one fenced ```json block containing a single JSON object."

def writeErrorsFeedback (errs : List String) : String :=
  "CRITICAL ERROR: The orchestrator failed to write one or more files. " ++
  "This is an environment/permissions issue, not a code issue.\n\n" ++
  "WRITE ERRORS:\n" ++ joinDash errs

def escalationFeedback : String :=
  "CRITICAL: You have made 0 edits for 2 consecutive attempts. You are stuck. " ++
  "You MUST make code changes to address the feedback. " ++
  "If a guardrail is blocking you, find an alternative approach. " ++
  "If you cannot make progress, explain WHY in detail."

def lazyFeedback : String :=
  "CRITICAL ERROR: You did not perform any actions (no files edited, no file_ops, no commands). " ++
  "You MUST modify the codebase to address the feedback. " ++
  "If you think no changes are needed, you must explain why in \x27thought_process\x27 " ++
  "and run a verification command."

/-- The synthesized rejection the Player sees after a fast-fail (lines 2082-2089). -/
def fastFailFeedback (env : IterEnv) : String :=
  "AUTOMATIC REJECTION (Fast Fail):\n" ++
  "The following verification commands failed:\n" ++ joinDash env.verificationErrors ++
  "\n\nCOMMAND OUTPUT SUMMARY:\n" ++
  (if env.commandOutputsSummary = "" then "(none)" else env.commandOutputsSummary) ++
  "\n\nCOMMAND OUTPUT (TRUNCATED):\n" ++ truncateOutput env.commandOutputs 2500 ++
  "\n\nYou must fix these errors before the Coach will review your code."

def coachNoResponseFeedback : String :=
  "Coach produced no response. Proceeding with caution."

def coachFailedFeedback : String :=
  "Coach failed to review. Proceeding with caution."

/-- The forced-continuation feedback after an approval with incomplete spec
    (lines 2330-2334). -/
def blockerFeedback : String :=
  "BLOCKER: You may not finish the run yet because SPECIFICATION.md is not marked complete. " ++
  "Update SPECIFICATION.md by checking off completed items (- [x]) or adding \x27Status: COMPLETE\x27. " ++
  "If the work is complete, your task is to mark it complete in the spec so we stop wasting tokens."

def replanFeedback (args : LoopArgs) (coachFeedback : String) : String :=
  "SPECIFICATION REVISED BY ARCHITECT (Replan):\n\n" ++
  "The Coach identified a fundamental design issue:\n" ++ coachFeedback ++
  "\n\nThe Architect has updated " ++ args.specFile ++ " to address this. " ++
  "Review the revised specification and implement the corrected approach. " ++
  "Focus on the changes in the REVISION HISTORY section if present."

def maxTurnsMessage (args : LoopArgs) : String :=
  "Max turns (" ++ toString args.maxTurns ++ ") reached without full approval."

/-- The failure reason reported when the Coach approves but the re-read spec is
    incomplete on the final turn (lines 2319-2322). -/
def incompleteReason (prog : SpecProgress) : String :=
  "Spec incomplete (mode=" ++ prog.mode ++ ", remaining_items=" ++
  toString prog.remainingItems.length ++
  "). Do not declare success until SPECIFICATION.md is marked complete."

def streakAbortMessage (n : Nat) : String :=
  "Aborting: Player has made 0 edits for " ++ toString n ++ " consecutive attempts. " ++
  "This indicates the Player is stuck and unable to make progress. " ++
  "Possible causes: guardrail blocking necessary changes, unclear feedback, or context overload."

/-- The common pre-Coach skip pattern: reset the fast-fail state, bump the
    global skip counter, abort past the cap, otherwise retry at the same turn. -/
def skipIter (args : LoopArgs) (st : LoopState) (fb : String) (streak : Nat)
    (abortMsg : String) : StepResult :=
  let st' : LoopState :=
    { st with
      feedback := fb
      lastSkipReason := ""
      lastFastFailOutputs := ""
      lastFastFailErrors := []
      fastFailRetries := 0
      zeroEditsStreak := streak
      skippedWithoutCoach := st.skippedWithoutCoach + 1 }
  if st'.skippedWithoutCoach > maxSkipsWithoutCoach args then
    .terminated "failed" abortMsg
  else .next st'

/-- The Coach section of an iteration (lines 2122-2452), entered with the
    fast-fail state already reset (lines 2123-2126). -/
def coachSection (args : LoopArgs) (st : LoopState) (env : IterEnv) : StepResult :=
  if !env.coachResponded then
    let st' := { st with feedback := coachNoResponseFeedback, skippedWithoutCoach := 0 }
    if st.turn = args.maxTurns then .terminated "partial" (maxTurnsMessage args)
    else .next { st' with turn := st.turn + 1 }
  else
    match env.coachParsed with
    | none =>
      -- Invalid Coach JSON: one in-turn repair is attempted, but the loop then
      -- advances the turn and continues regardless of the repair result
      -- (lines 2258-2269; a successfully repaired decision is discarded).
      let fb := if !env.coachRepairParsed then coachFailedFeedback else st.feedback
      let st' := { st with feedback := fb, skippedWithoutCoach := 0 }
      if st.turn = args.maxTurns then .terminated "partial" (maxTurnsMessage args)
      else .next { st' with turn := st.turn + 1 }
    | some (status, coachFeedback) =>
      if status = "APPROVED" then
        -- Success is ONLY allowed when the re-read specification is complete.
        let prog := specProgress env.specText.toList
        if !prog.complete then
          if st.turn = args.maxTurns then
            .terminated "failed" (incompleteReason prog)
          else
            .next
            { st with
              feedback := blockerFeedback
              turn := st.turn + 1 }
        else
          .terminated "success"
            (if !(env.filesChanged || env.fileOpsApplied) then
              "Coach approved; specification marked complete."
            else "Coach approved implementation; specification marked complete.")
      else if status = "REPLAN_NEEDED" then
        if !env.replanOk then
          .terminated "failed" "Architect failed to generate revised specification during replan."
        else
          -- Replan does not consume a turn (lines 2425-2428).
          .next
            { st with
              feedback := replanFeedback args coachFeedback
              skippedWithoutCoach := 0 }
      else
        let st' := { st with feedback := coachFeedback, skippedWithoutCoach := 0 }
        if st.turn = args.maxTurns then .terminated "partial" (maxTurnsMessage args)
        else .next { st' with turn := st.turn + 1 }

/-- The verification / fast-fail section of an iteration (lines 1868-2119),
    entered with the zero-edit streak already computed; falls through to the
    Coach section when fast-fail does not skip it. -/
def stepVerify (args : LoopArgs) (st : LoopState) (env : IterEnv) (streak : Nat) :
    StepResult :=
  if args.fastFail && !env.verificationErrors.isEmpty then
    let retries := st.fastFailRetries + 1
    let bypass := retries > args.maxFastFailRetries
    let stFF : LoopState :=
      { st with
        zeroEditsStreak := streak
        fastFailRetries := retries
        feedback := fastFailFeedback env
        lastSkipReason := "fast-fail"
        lastFastFailOutputs := truncateOutput env.commandOutputs 8000
        lastFastFailErrors := env.verificationErrors }
    if !bypass then
      let st' := { stFF with skippedWithoutCoach := st.skippedWithoutCoach + 1 }
      if st'.skippedWithoutCoach > maxSkipsWithoutCoach args then
        .terminated "failed"
          "Aborting: too many iterations without a Coach review due to repeated fast-fail verification."
      else .next st'
    else
      coachSection args
        { stFF with
          lastSkipReason := ""
          lastFastFailOutputs := ""
          lastFastFailErrors := []
          fastFailRetries := 0 } env
  else
    coachSection args
      { st with
        zeroEditsStreak := streak
        lastSkipReason := ""
        lastFastFailOutputs := ""
        lastFastFailErrors := []
        fastFailRetries := 0 } env

/-- The zero-progress tracking section of an iteration (lines 1792-1866),
    entered after the Player output has been parsed and applied without write
    errors. -/
def stepAfterWrites (args : LoopArgs) (st : LoopState) (env : IterEnv) : StepResult :=
  let madeChanges := env.filesChanged || env.fileOpsApplied
  let streak := if madeChanges then 0 else st.zeroEditsStreak + 1
  if streak ≥ 3 then
    .terminated "failed" (streakAbortMessage streak)
  else if streak = 2 then
    skipIter args st escalationFeedback streak
      "Aborting: too many iterations without a Coach review."
  else if (!madeChanges && !env.hasCommands) && args.noAutoVerify && args.verifyCmd.isEmpty then
    skipIter args st lazyFeedback streak
      "Aborting: too many iterations without a Coach review due to repeated no-op Player turns."
  else stepVerify args st env streak

/-- One iteration of the main loop (lines 1312-2452). -/
def step (args : LoopArgs) (st : LoopState) (env : IterEnv) : StepResult :=
  if !env.playerResponded then
    skipIter args st st.feedback st.zeroEditsStreak
      ("Aborting: too many iterations without a Coach review. " ++
       "Player is repeatedly failing before Coach can run.")
  else if !env.playerParsed then
    skipIter args st invalidPlayerJsonFeedback st.zeroEditsStreak
      "Aborting: too many iterations without a Coach review due to invalid Player JSON."
  else if !env.writeErrors.isEmpty then
    skipIter args st (writeErrorsFeedback env.writeErrors) st.zeroEditsStreak
      "Aborting: too many iterations without a Coach review due to persistent write failures."
  else stepAfterWrites args st env

/-- Outcome of running the loop against a finite trace of iteration
    environments. -/
inductive RunOutcome
  | terminated (status message : String)
  | outOfTrace (st : LoopState)
  | loopExit (st : LoopState)
deriving DecidableEq, Repr

/-- Run the `while turn <= max_turns` loop against a finite oracle trace. -/
def runLoop (args : LoopArgs) : LoopState → List IterEnv → RunOutcome
  | st, [] => .outOfTrace st
  | st, e :: es =>
    if st.turn > args.maxTurns then .loopExit st
    else
      match step args st e with
      | .terminated s m => .terminated s m
      | .next st' => runLoop args st' es

/-! ### Helper lemmas about `skipIter` and `coachSection` -/

theorem skipIter_terminated {args st fb k m s m'}
    (h : skipIter args st fb k m = .terminated s m') : s = "failed" ∧ m' = m := by
  unfold skipIter at h
  simp only [] at h
  split at h
  · exact ⟨(StepResult.terminated.inj h).1.symm, (StepResult.terminated.inj h).2.symm⟩
  · simp at h

theorem skipIter_next_fields {args st fb k m st'}
    (h : skipIter args st fb k m = .next st') :
    st'.turn = st.turn ∧ st'.feedback = fb ∧ st'.zeroEditsStreak = k
    ∧ st'.skippedWithoutCoach = st.skippedWithoutCoach + 1 := by
  unfold skipIter at h
  simp only [] at h
  split at h
  · simp at h
  · injection h with h'
    subst h'
    exact ⟨rfl, rfl, rfl, rfl⟩

theorem coachSection_success {args st env msg}
    (h : coachSection args st env = .terminated "success" msg) :
    (specProgress env.specText.toList).complete = true := by
  unfold coachSection at h
  simp only [] at h
  split at h
  · split at h <;> simp at h
  · split at h
    · split at h <;> simp at h
    · split at h
      · split at h
        · split at h <;> simp at h
        · rename_i hcomp
          simpa using hcomp
      · split at h
        · split at h <;> simp at h
        · split at h <;> simp at h

theorem coachSection_next_turn {args st env st'}
    (h : coachSection args st env = .next st') :
    st'.turn = st.turn ∨ st'.turn = st.turn + 1 := by
  unfold coachSection at h
  simp only [] at h
  split at h
  · split at h
    · simp at h
    · injection h with h'; subst h'; right; rfl
  · split at h
    · split at h
      · simp at h
      · injection h with h'; subst h'; right; rfl
    · split at h
      · split at h
        · split at h
          · simp at h
          · injection h with h'; subst h'; right; rfl
        · simp at h
      · split at h
        · split at h
          · simp at h
          · injection h with h'; subst h'; left; rfl
        · split at h
          · simp at h
          · injection h with h'; subst h'; right; rfl

theorem coachSection_next_streak {args st env st'}
    (h : coachSection args st env = .next st') :
    st'.zeroEditsStreak = st.zeroEditsStreak := by
  unfold coachSection at h
  simp only [] at h
  split at h
  · split at h
    · simp at h
    · injection h with h'; subst h'; rfl
  · split at h
    · split at h
      · simp at h
      · injection h with h'; subst h'; rfl
    · split at h
      · split at h
        · split at h
          · simp at h
          · injection h with h'; subst h'; rfl
        · simp at h
      · split at h
        · split at h
          · simp at h
          · injection h with h'; subst h'; rfl
        · split at h
          · simp at h
          · injection h with h'; subst h'; rfl

/-! ### A classification of the paths through one iteration -/

/-- The zero-edit streak value computed by the iteration (lines 1793-1801). -/
def stepStreak (st : LoopState) (env : IterEnv) : Nat :=
  if env.filesChanged || env.fileOpsApplied then 0 else st.zeroEditsStreak + 1

/-- Whether the post-parse part of an iteration reaches the Coach LLM call. -/
def reachesCoachTail (args : LoopArgs) (st : LoopState) (env : IterEnv) : Bool :=
  decide (stepStreak st env < 3) && !(decide (stepStreak st env = 2)) &&
  !((!(env.filesChanged || env.fileOpsApplied) && !env.hasCommands)
      && args.noAutoVerify && args.verifyCmd.isEmpty) &&
  !((args.fastFail && !env.verificationErrors.isEmpty) &&
    decide (st.fastFailRetries + 1 ≤ args.maxFastFailRetries))

/-- Whether control of one iteration reaches the Coach LLM call. -/
def reachesCoach (args : LoopArgs) (st : LoopState) (env : IterEnv) : Bool :=
  env.playerResponded && env.playerParsed && env.writeErrors.isEmpty &&
  reachesCoachTail args st env

/-- Classification of the verification / fast-fail section: either fast-fail
    under the cap skips the Coach (same turn, streak preserved, possibly
    aborting on the global skip cap), or a Coach call is made. -/
theorem stepVerify_classified (args : LoopArgs) (st : LoopState) (env : IterEnv)
    (streak : Nat) :
    ((stepVerify args st env streak = .terminated "failed"
        "Aborting: too many iterations without a Coach review due to repeated fast-fail verification."
      ∨ ∃ st0, stepVerify args st env streak = .next st0 ∧ st0.turn = st.turn
          ∧ st0.zeroEditsStreak = streak)
      ∧ ((args.fastFail && !env.verificationErrors.isEmpty) &&
          decide (st.fastFailRetries + 1 ≤ args.maxFastFailRetries)) = true)
    ∨ (∃ st0 : LoopState, st0.turn = st.turn ∧ st0.zeroEditsStreak = streak
      ∧ stepVerify args st env streak = coachSection args st0 env
      ∧ ((args.fastFail && !env.verificationErrors.isEmpty) &&
          decide (st.fastFailRetries + 1 ≤ args.maxFastFailRetries)) = false) := by
  unfold stepVerify
  cases hffc : (args.fastFail && !env.verificationErrors.isEmpty) with
  | false =>
    refine Or.inr ⟨{ st with
        zeroEditsStreak := streak
        lastSkipReason := ""
        lastFastFailOutputs := ""
        lastFastFailErrors := []
        fastFailRetries := 0 }, rfl, rfl, by simp, by simp [hffc]⟩
  | true =>
    by_cases hcap : st.fastFailRetries + 1 > args.maxFastFailRetries
    · refine Or.inr ⟨{ st with
          zeroEditsStreak := streak
          fastFailRetries := 0
          feedback := fastFailFeedback env
          lastSkipReason := ""
          lastFastFailOutputs := ""
          lastFastFailErrors := [] }, rfl, rfl, ?_, ?_⟩
      · simp [decide_eq_true hcap]
      · simp [decide_eq_false (by omega :
          ¬(st.fastFailRetries + 1 ≤ args.maxFastFailRetries))]
    · refine Or.inl ⟨?_, ?_⟩
      · by_cases hsk : st.skippedWithoutCoach + 1 > maxSkipsWithoutCoach args
        · refine Or.inl ?_
          simp [decide_eq_false hcap, hsk]
        · refine Or.inr ⟨{ st with
              zeroEditsStreak := streak
              fastFailRetries := st.fastFailRetries + 1
              feedback := fastFailFeedback env
              lastSkipReason := "fast-fail"
              lastFastFailOutputs := truncateOutput env.commandOutputs 8000
              lastFastFailErrors := env.verificationErrors
              skippedWithoutCoach := st.skippedWithoutCoach + 1 }, ?_, rfl, rfl⟩
          simp [decide_eq_false hcap]
          omega
      · simp [hffc, decide_eq_true (by omega :
          st.fastFailRetries + 1 ≤ args.maxFastFailRetries)]

/-- Classification of the zero-progress tracking section. -/
theorem stepAfterWrites_classified (args : LoopArgs) (st : LoopState) (env : IterEnv) :
    (stepAfterWrites args st env
        = .terminated "failed" (streakAbortMessage (st.zeroEditsStreak + 1))
      ∧ reachesCoachTail args st env = false)
    ∨ (∃ fb m, stepAfterWrites args st env = skipIter args st fb (stepStreak st env) m
      ∧ reachesCoachTail args st env = false)
    ∨ ((stepAfterWrites args st env = .terminated "failed"
          "Aborting: too many iterations without a Coach review due to repeated fast-fail verification."
        ∨ ∃ st0, stepAfterWrites args st env = .next st0 ∧ st0.turn = st.turn
            ∧ st0.zeroEditsStreak = stepStreak st env)
      ∧ reachesCoachTail args st env = false)
    ∨ (∃ st0 : LoopState, st0.turn = st.turn
      ∧ st0.zeroEditsStreak = stepStreak st env
      ∧ stepAfterWrites args st env = coachSection args st0 env
      ∧ reachesCoachTail args st env = true) := by
  have hbody : stepAfterWrites args st env =
      (if stepStreak st env ≥ 3 then
        .terminated "failed" (streakAbortMessage (stepStreak st env))
      else if stepStreak st env = 2 then
        skipIter args st escalationFeedback (stepStreak st env)
          "Aborting: too many iterations without a Coach review."
      else if (!(env.filesChanged || env.fileOpsApplied) && !env.hasCommands)
          && args.noAutoVerify && args.verifyCmd.isEmpty then
        skipIter args st lazyFeedback (stepStreak st env)
          "Aborting: too many iterations without a Coach review due to repeated no-op Player turns."
      else stepVerify args st env (stepStreak st env)) := by
    unfold stepAfterWrites stepStreak
    rfl
  by_cases hs3 : stepStreak st env ≥ 3
  · have hmc : (env.filesChanged || env.fileOpsApplied) = false := by
      cases h : (env.filesChanged || env.fileOpsApplied) with
      | true => exact absurd hs3 (by simp [stepStreak, h])
      | false => rfl
    have hval : stepStreak st env = st.zeroEditsStreak + 1 := by
      simp [stepStreak, hmc]
    refine Or.inl ⟨?_, ?_⟩
    · rw [hbody, if_pos hs3, hval]
    · unfold reachesCoachTail
      rw [decide_eq_false (show ¬stepStreak st env < 3 by omega)]
      rfl
  by_cases hs2 : stepStreak st env = 2
  · refine Or.inr (Or.inl ⟨escalationFeedback,
      "Aborting: too many iterations without a Coach review.", ?_, ?_⟩)
    · rw [hbody, if_neg hs3, if_pos hs2]
    · unfold reachesCoachTail
      rw [decide_eq_true hs2]
      simp
  cases hlz : ((!(env.filesChanged || env.fileOpsApplied) && !env.hasCommands)
      && args.noAutoVerify && args.verifyCmd.isEmpty) with
  | true =>
    refine Or.inr (Or.inl ⟨lazyFeedback,
      "Aborting: too many iterations without a Coach review due to repeated no-op Player turns.",
      ?_, ?_⟩)
    · rw [hbody, if_neg hs3, if_neg hs2, if_pos hlz]
    · unfold reachesCoachTail
      rw [hlz]
      simp
  | false =>
  have hfinal : stepAfterWrites args st env = stepVerify args st env (stepStreak st env) := by
    rw [hbody, if_neg hs3, if_neg hs2, if_neg (show ¬_ = true by rw [hlz]; simp)]
  rcases stepVerify_classified args st env (stepStreak st env) with ⟨hshape, hcond⟩ |
    ⟨st0, ht0, hz0, heq, hcond⟩
  · refine Or.inr (Or.inr (Or.inl ⟨?_, ?_⟩))
    · rcases hshape with hterm | ⟨st0, hnext, ht0, hz0⟩
      · exact Or.inl (hfinal.trans hterm)
      · exact Or.inr ⟨st0, hfinal.trans hnext, ht0, hz0⟩
    · unfold reachesCoachTail
      rw [hcond]
      simp
  · refine Or.inr (Or.inr (Or.inr ⟨st0, ht0, hz0, hfinal.trans heq, ?_⟩))
    unfold reachesCoachTail
    rw [hcond, hlz, decide_eq_true (show stepStreak st env < 3 by omega),
      decide_eq_false hs2]
    rfl

/-- Every iteration takes exactly one of five path families: a pre-parse skip,
    the zero-progress abort, a post-parse skip, a fast-fail-under-cap
    skip/abort, or a Coach call. -/
theorem step_classified (args : LoopArgs) (st : LoopState) (env : IterEnv) :
    (∃ fb m, step args st env = skipIter args st fb st.zeroEditsStreak m
      ∧ reachesCoach args st env = false
      ∧ (env.playerResponded = false ∨ env.playerParsed = false
          ∨ env.writeErrors.isEmpty = false))
    ∨ (step args st env = .terminated "failed" (streakAbortMessage (st.zeroEditsStreak + 1))
      ∧ reachesCoach args st env = false)
    ∨ (∃ fb m, step args st env = skipIter args st fb (stepStreak st env) m
      ∧ reachesCoach args st env = false)
    ∨ ((step args st env = .terminated "failed"
          "Aborting: too many iterations without a Coach review due to repeated fast-fail verification."
        ∨ ∃ st0, step args st env = .next st0 ∧ st0.turn = st.turn
            ∧ st0.zeroEditsStreak = stepStreak st env)
      ∧ reachesCoach args st env = false)
    ∨ (∃ st0 : LoopState, st0.turn = st.turn
      ∧ st0.zeroEditsStreak = stepStreak st env
      ∧ step args st env = coachSection args st0 env
      ∧ reachesCoach args st env = true) := by
  cases hb1 : env.playerResponded with
  | false =>
    refine Or.inl ⟨st.feedback,
      "Aborting: too many iterations without a Coach review. " ++
        "Player is repeatedly failing before Coach can run.", ?_, ?_, Or.inl rfl⟩
    · unfold step
      rw [hb1]
      rfl
    · unfold reachesCoach
      rw [hb1]
      rfl
  | true =>
  cases hb2 : env.playerParsed with
  | false =>
    refine Or.inl ⟨invalidPlayerJsonFeedback,
      "Aborting: too many iterations without a Coach review due to invalid Player JSON.",
      ?_, ?_, Or.inr (Or.inl rfl)⟩
    · unfold step
      rw [hb1, hb2]
      rfl
    · unfold reachesCoach
      rw [hb1, hb2]
      rfl
  | true =>
  cases hw : env.writeErrors.isEmpty with
  | false =>
    refine Or.inl ⟨writeErrorsFeedback env.writeErrors,
      "Aborting: too many iterations without a Coach review due to persistent write failures.",
      ?_, ?_, Or.inr (Or.inr rfl)⟩
    · unfold step
      rw [hb1, hb2, hw]
      rfl
    · unfold reachesCoach
      rw [hb1, hb2, hw]
      rfl
  | true =>
  have hstep : step args st env = stepAfterWrites args st env := by
    unfold step
    rw [hb1, hb2, hw]
    rfl
  have hreach : reachesCoach args st env = reachesCoachTail args st env := by
    unfold reachesCoach
    rw [hb1, hb2, hw]
    simp
  rw [hstep, hreach]
  rcases stepAfterWrites_classified args st env with h | h | h | h
  · exact Or.inr (Or.inl h)
  · exact Or.inr (Or.inr (Or.inl h))
  · exact Or.inr (Or.inr (Or.inr (Or.inl h)))
  · exact Or.inr (Or.inr (Or.inr (Or.inr h)))

/-! ### Claim C1 -/

/-- C1: the loop never terminates with status `success` while the on-disk
    specification derives incomplete progress.  Any `terminated "success"`
    step implies the re-read specification file derives `complete = true`;
    and when the Coach returns APPROVED while the re-read specification is
    incomplete, the iteration substitutes the forced-continuation blocker
    feedback and keeps looping at the next turn, or, on the final turn,
    terminates with the non-success status `"failed"`. -/
theorem success_only_when_spec_complete (args : LoopArgs) (st : LoopState) (env : IterEnv) :
    (∀ msg, step args st env = .terminated "success" msg →
        (specProgress env.specText.toList).complete = true)
    ∧ (∀ cfb, env.coachParsed = some ("APPROVED", cfb) →
        env.coachResponded = true →
        (specProgress env.specText.toList).complete = false →
        env.playerResponded = true → env.playerParsed = true →
        env.writeErrors = [] → env.filesChanged = true →
        env.verificationErrors = [] →
        ((st.turn ≠ args.maxTurns →
            step args st env = .next
              { st with
                zeroEditsStreak := 0
                lastSkipReason := ""
                lastFastFailOutputs := ""
                lastFastFailErrors := []
                fastFailRetries := 0
                feedback := blockerFeedback
                turn := st.turn + 1 })
          ∧ (st.turn = args.maxTurns →
            step args st env =
              .terminated "failed" (incompleteReason (specProgress env.specText.toList))))) := by
  constructor
  · intro msg h
    rcases step_classified args st env with
      ⟨fb, m, heq, _, _⟩ | ⟨heq, _⟩ | ⟨fb, m, heq, _⟩ | ⟨heq | ⟨st0, heq, _, _⟩, _⟩
      | ⟨st0, _, _, heq, _⟩
    · rw [heq] at h
      exact absurd (skipIter_terminated h).1 (by decide)
    · rw [heq] at h
      exact absurd (StepResult.terminated.inj h).1 (by decide)
    · rw [heq] at h
      exact absurd (skipIter_terminated h).1 (by decide)
    · rw [heq] at h
      exact absurd (StepResult.terminated.inj h).1 (by decide)
    · rw [heq] at h
      simp at h
    · rw [heq] at h
      exact coachSection_success h
  · intro cfb hcp hcr hcomp hr hp hw hf hv
    have hcomp' : (specProgress env.specText.data).complete = false := hcomp
    constructor
    · intro hne
      unfold step stepAfterWrites stepVerify coachSection
      simp [hr, hp, hw, hf, hv, hcp, hcr, hcomp, hcomp', hne]
    · intro hmax
      unfold step stepAfterWrites stepVerify coachSection
      simp [hr, hp, hw, hf, hv, hcp, hcr, hcomp, hcomp', hmax]

/-- Arguments used for the concrete loop scenarios. -/
def argsX : LoopArgs :=
  { maxTurns := 5, specFile := "SPECIFICATION.md", fastFail := false,
    maxFastFailRetries := 2, noAutoVerify := false, verifyCmd := [] }

/-- An iteration in which the Player makes an edit and the Coach approves, but
    the on-disk specification still has an unchecked item. -/
def envApprovedIncomplete : IterEnv :=
  { playerResponded := true, playerParsed := true, fileOpsApplied := false,
    filesChanged := true, writeErrors := [], hasCommands := false,
    verificationErrors := [], commandOutputs := "", commandOutputsSummary := "",
    coachResponded := true, coachParsed := some ("APPROVED", "looks good"),
    coachRepairParsed := false, specText := "- [ ] still open", replanOk := false }

/-- Witness for C1: a concrete approved-but-incomplete iteration is downgraded
    to a forced continuation at the next turn. -/
theorem success_only_when_spec_complete_witness :
    step argsX initState envApprovedIncomplete = .next
      { initState with
        zeroEditsStreak := 0
        lastSkipReason := ""
        lastFastFailOutputs := ""
        lastFastFailErrors := []
        fastFailRetries := 0
        feedback := blockerFeedback
        turn := initState.turn + 1 } :=
  ((success_only_when_spec_complete argsX initState envApprovedIncomplete).2
    "looks good" rfl rfl (by decide) rfl rfl rfl rfl rfl).1 (by decide)

/-! ### Claim C2 -/

/-- C2 (amended): within one iteration the turn number either stays or
    advances by one, and it advances only when control actually reaches the
    Coach call; every pre-Coach path (Player no-response, invalid Player JSON
    after one repair, file write failure, zero-progress skip, fast-fail under
    the retry cap) retries at the same turn number.  (A Coach call that yields
    no response or unparseable JSON after the single repair attempt does
    advance the turn, which is why the original claim is amended.) -/
theorem turn_advance_requires_coach_call (args : LoopArgs) (st : LoopState)
    (env : IterEnv) (st' : LoopState) (h : step args st env = .next st') :
    (st'.turn = st.turn ∨ st'.turn = st.turn + 1)
    ∧ (st'.turn = st.turn + 1 → reachesCoach args st env = true)
    ∧ (reachesCoach args st env = false → st'.turn = st.turn) := by
  rcases step_classified args st env with
    ⟨fb, m, heq, _, _⟩ | ⟨heq, _⟩ | ⟨fb, m, heq, _⟩ | ⟨heq | ⟨st0, heq, ht0, _⟩, _⟩
    | ⟨st0, ht0, _, heq, hreach⟩
  · rw [heq] at h
    have ht := (skipIter_next_fields h).1
    exact ⟨Or.inl ht, fun h1 => absurd (ht.symm.trans h1) (by omega), fun _ => ht⟩
  · rw [heq] at h
    simp at h
  · rw [heq] at h
    have ht := (skipIter_next_fields h).1
    exact ⟨Or.inl ht, fun h1 => absurd (ht.symm.trans h1) (by omega), fun _ => ht⟩
  · rw [heq] at h
    simp at h
  · rw [heq] at h
    injection h with h'
    subst h'
    exact ⟨Or.inl ht0, fun h1 => absurd (ht0.symm.trans h1) (by omega), fun _ => ht0⟩
  · rw [heq] at h
    rcases coachSection_next_turn h with ht | ht
    · exact ⟨Or.inl (ht.trans ht0), fun _ => hreach, fun _ => ht.trans ht0⟩
    · refine ⟨Or.inr (by rw [ht, ht0]), fun _ => hreach, fun hfalse => ?_⟩
      rw [hreach] at hfalse
      exact absurd hfalse (by decide)

/-- An iteration in which the Coach LLM call produces no response at all. -/
def envCoachSilent : IterEnv :=
  { playerResponded := true, playerParsed := true, fileOpsApplied := false,
    filesChanged := true, writeErrors := [], hasCommands := false,
    verificationErrors := [], commandOutputs := "", commandOutputsSummary := "",
    coachResponded := false, coachParsed := none, coachRepairParsed := false,
    specText := "", replanOk := false }

/-- The state produced by `envCoachSilent` from the initial state. -/
def stAfterCoachSilent : LoopState :=
  { initState with feedback := coachNoResponseFeedback, turn := 2 }

/-- Counterexample to C2 as stated: when the Coach call fails to produce any
    decision (here: no response), the turn number is advanced from 1 to 2, so
    it is not the case that every non-decision path leaves the turn number
    unchanged. -/
theorem coach_parse_failure_advances_turn :
    (match step argsX initState envCoachSilent with
      | .next st' => st'.turn
      | _ => 0) = 2
    ∧ envCoachSilent.coachResponded = false
    ∧ initState.turn = 1 :=
  ⟨rfl, rfl, rfl⟩

/-- Witness for the amended C2 at a concrete iteration. -/
theorem turn_advance_requires_coach_call_witness :
    reachesCoach argsX initState envCoachSilent = true :=
  (turn_advance_requires_coach_call argsX initState envCoachSilent
    stAfterCoachSilent (by rfl)).2.1 (by rfl)

/-! ### Claim C3 -/

/-- An iteration in which the Player makes no progress at all: it parses, but
    attempts no file writes (hence no write errors), applies no file
    operations, and runs no commands. -/
def zeroActionEnv (e : IterEnv) : Prop :=
  e.playerResponded = true ∧ e.playerParsed = true ∧ e.writeErrors = []
  ∧ e.filesChanged = false ∧ e.fileOpsApplied = false ∧ e.hasCommands = false

theorem step_next_streak_incr {args st env st'}
    (h : step args st env = .next st')
    (hr : env.playerResponded = true) (hp : env.playerParsed = true)
    (hw : env.writeErrors = []) (hf : env.filesChanged = false)
    (ho : env.fileOpsApplied = false) :
    st'.zeroEditsStreak = st.zeroEditsStreak + 1 := by
  have hstreak : stepStreak st env = st.zeroEditsStreak + 1 := by
    simp [stepStreak, hf, ho]
  rcases step_classified args st env with
    ⟨fb, m, heq, _, hcause⟩ | ⟨heq, _⟩ | ⟨fb, m, heq, _⟩ | ⟨heq | ⟨st0, heq, _, hz0⟩, _⟩
    | ⟨st0, _, hz0, heq, _⟩
  · rcases hcause with hc | hc | hc
    · rw [hr] at hc; exact absurd hc (by decide)
    · rw [hp] at hc; exact absurd hc (by decide)
    · rw [hw] at hc; exact absurd hc (by decide)
  · rw [heq] at h
    simp at h
  · rw [heq] at h
    rw [(skipIter_next_fields h).2.2.1, hstreak]
  · rw [heq] at h
    simp at h
  · rw [heq] at h
    injection h with h'
    subst h'
    rw [hz0, hstreak]
  · rw [heq] at h
    rw [coachSection_next_streak h, hz0, hstreak]

/-- C3 (amended): three consecutive iterations in which the Player attempts no
    file writes, applies no file operations and runs no commands terminate the
    run with status `failed`, regardless of the remaining turn budget; after
    two such consecutive iterations the escalated call-to-action feedback is
    the Player input for the next iteration.  (Amended: iterations whose write
    attempts all *fail* take the write-error path and do not count towards the
    streak, so the original "no successful writes" reading is false.) -/
theorem zero_action_three_strikes (args : LoopArgs) (st st1 st2 : LoopState)
    (e1 e2 e3 : IterEnv)
    (hz1 : zeroActionEnv e1) (hz2 : zeroActionEnv e2) (hz3 : zeroActionEnv e3)
    (h0 : st.zeroEditsStreak = 0)
    (h1 : step args st e1 = .next st1) (h2 : step args st1 e2 = .next st2) :
    step args st2 e3 = .terminated "failed" (streakAbortMessage 3)
    ∧ st2.feedback = escalationFeedback := by
  obtain ⟨r1, p1, w1, f1, o1, c1⟩ := hz1
  obtain ⟨r2, p2, w2, f2, o2, c2⟩ := hz2
  obtain ⟨r3, p3, w3, f3, o3, c3⟩ := hz3
  have hs1 : st1.zeroEditsStreak = 1 := by
    rw [step_next_streak_incr h1 r1 p1 w1 f1 o1, h0]
  have hs2 : st2.zeroEditsStreak = 2 := by
    rw [step_next_streak_incr h2 r2 p2 w2 f2 o2, hs1]
  constructor
  · unfold step stepAfterWrites
    simp [r3, p3, w3, f3, o3, hs2]
  · unfold step stepAfterWrites at h2
    simp [r2, p2, w2, f2, o2, hs1] at h2
    exact (skipIter_next_fields h2).2.1

/-- An iteration whose Player output attempts one file write that fails
    (no successful writes, no file operations, no commands). -/
def envWriteFail : IterEnv :=
  { playerResponded := true, playerParsed := true, fileOpsApplied := false,
    filesChanged := false,
    writeErrors := ["save_file failed for \x27a.ts\x27: permission denied"],
    hasCommands := false, verificationErrors := [], commandOutputs := "",
    commandOutputsSummary := "", coachResponded := false, coachParsed := none,
    coachRepairParsed := false, specText := "", replanOk := false }

/-- Counterexample to C3 as stated: three consecutive iterations with no
    successful file writes, no applied file operations and no commands (all
    write attempts failing) do NOT terminate the run: the write-error path
    retries at the same turn without touching the zero-progress streak. -/
theorem zero_write_streak_not_fatal :
    (match runLoop argsX initState [envWriteFail, envWriteFail, envWriteFail] with
      | .terminated s _ => s
      | _ => "still-running") = "still-running"
    ∧ envWriteFail.filesChanged = false
    ∧ envWriteFail.fileOpsApplied = false
    ∧ envWriteFail.hasCommands = false :=
  ⟨rfl, rfl, rfl, rfl⟩

/-- A zero-action iteration (Player does nothing at all). -/
def envNoAction : IterEnv :=
  { playerResponded := true, playerParsed := true, fileOpsApplied := false,
    filesChanged := false, writeErrors := [], hasCommands := false,
    verificationErrors := [], commandOutputs := "", commandOutputsSummary := "",
    coachResponded := true, coachParsed := some ("REJECTED", "do more"),
    coachRepairParsed := false, specText := "", replanOk := false }

/-- Witness for the amended C3 on a concrete three-iteration trace. -/
theorem zero_action_three_strikes_witness :
    ∃ st1 st2,
      step argsX initState envNoAction = .next st1
      ∧ step argsX st1 envNoAction = .next st2
      ∧ step argsX st2 envNoAction = .terminated "failed" (streakAbortMessage 3)
      ∧ st2.feedback = escalationFeedback := by
  refine ⟨_, _, rfl, rfl, ?_⟩
  exact zero_action_three_strikes argsX initState _ _ envNoAction envNoAction envNoAction
    (by exact ⟨rfl, rfl, rfl, rfl, rfl, rfl⟩) (by exact ⟨rfl, rfl, rfl, rfl, rfl, rfl⟩)
    (by exact ⟨rfl, rfl, rfl, rfl, rfl, rfl⟩) rfl rfl rfl

/-! ### Claim C8 -/

/-- C8: with fast-fail enabled and a failing verification command, while the
    per-turn retry counter (after increment) has not exceeded the configured
    cap the Coach is skipped entirely: the iteration continues at the *same*
    turn with the synthesized rejection feedback built from the failing
    commands and an incremented retry counter; once the counter exceeds the
    cap, a Coach review is forced despite the verification failure. -/
theorem fast_fail_skips_coach (args : LoopArgs) (st : LoopState) (env : IterEnv)
    (hff : args.fastFail = true) (hv : env.verificationErrors ≠ [])
    (hr : env.playerResponded = true) (hp : env.playerParsed = true)
    (hw : env.writeErrors = []) (hc : env.filesChanged = true) :
    (st.fastFailRetries + 1 ≤ args.maxFastFailRetries →
      st.skippedWithoutCoach + 1 ≤ maxSkipsWithoutCoach args →
      step args st env = .next
        { st with
          zeroEditsStreak := 0
          fastFailRetries := st.fastFailRetries + 1
          feedback := fastFailFeedback env
          lastSkipReason := "fast-fail"
          lastFastFailOutputs := truncateOutput env.commandOutputs 8000
          lastFastFailErrors := env.verificationErrors
          skippedWithoutCoach := st.skippedWithoutCoach + 1 })
    ∧ (st.fastFailRetries + 1 > args.maxFastFailRetries →
      step args st env = coachSection args
        { st with
          zeroEditsStreak := 0
          fastFailRetries := 0
          feedback := fastFailFeedback env
          lastSkipReason := ""
          lastFastFailOutputs := ""
          lastFastFailErrors := [] } env) := by
  have hv' : env.verificationErrors.isEmpty = false := by
    simpa [List.isEmpty_iff] using hv
  constructor
  · intro hcap hskip
    unfold step stepAfterWrites stepVerify
    simp [hr, hp, hw, hc, hff, hv',
      show ¬(st.fastFailRetries + 1 > args.maxFastFailRetries) by omega,
      show ¬(st.skippedWithoutCoach + 1 > maxSkipsWithoutCoach args) by omega]
  · intro hcap
    unfold step stepAfterWrites stepVerify
    simp [hr, hp, hw, hc, hff, hv', hcap]

/-- Fast-fail arguments used by the C8 witness. -/
def argsFF : LoopArgs :=
  { maxTurns := 5, specFile := "SPECIFICATION.md", fastFail := true,
    maxFastFailRetries := 2, noAutoVerify := false, verifyCmd := [] }

/-- An iteration with an edit applied but a failing verification command. -/
def envVerifyFail : IterEnv :=
  { playerResponded := true, playerParsed := true, fileOpsApplied := false,
    filesChanged := true,
    writeErrors := [], hasCommands := false,
    verificationErrors := ["Command \x27npm run build\x27 failed with exit code 1"],
    commandOutputs := "Command: npm run build\nExit Code: 1\nOutput:\nboom\n\n",
    commandOutputsSummary := "", coachResponded := true,
    coachParsed := some ("REJECTED", "fix it"), coachRepairParsed := false,
    specText := "", replanOk := false }

/-- Witness for C8 at a concrete fast-fail iteration. -/
theorem fast_fail_skips_coach_witness :
    step argsFF initState envVerifyFail = .next
      { initState with
        zeroEditsStreak := 0
        fastFailRetries := 1
        feedback := fastFailFeedback envVerifyFail
        lastSkipReason := "fast-fail"
        lastFastFailOutputs := truncateOutput envVerifyFail.commandOutputs 8000
        lastFastFailErrors := envVerifyFail.verificationErrors
        skippedWithoutCoach := 1 } :=
  (fast_fail_skips_coach argsFF initState envVerifyFail rfl (by decide) rfl rfl rfl rfl).1
    (by decide) (by decide)

/-! ## `extract_json` (llm_client.py, lines 196-320) and a model of `json.loads`

`json.loads` is modelled by a strict recursive-descent JSON parser over
`List Char`.  Model scope: numbers are integers (no fraction/exponent), and
string contents are printable ASCII without `"` or `\` (no escape sequences);
the serializer model `dumps` mirrors `json.dumps` on such values.  JSON
whitespace is the four characters accepted by Python's json module. -/

inductive JVal
  | null
  | bool (b : Bool)
  | num (n : Int)
  | str (s : List Char)
  | arr (xs : List JVal)
  | obj (ps : List (List Char × JVal))

def isJsonWs (c : Char) : Bool :=
  c = ' ' || c = '\t' || c = '\n' || c = '\r'

def skipJsonWs (s : List Char) : List Char := s.dropWhile isJsonWs

/-- Parse the body of a string literal up to the closing quote (no escapes,
    no control characters: the model scope). -/
def parseStringBody : List Char → Option (List Char × List Char)
  | [] => none
  | c :: rest =>
    if c = '"' then some ([], rest)
    else if c = '\\' ∨ c.toNat < 0x20 then none
    else
      match parseStringBody rest with
      | some (cs, t) => some (c :: cs, t)
      | none => none

def digitVal (c : Char) : Nat := c.toNat - 48

def foldDigits (ds : List Char) : Nat :=
  ds.foldl (fun a c => a * 10 + digitVal c) 0

/-- Parse an integer literal (optional minus sign, then digits). -/
def parseNum (s : List Char) : Option (Int × List Char) :=
  match s with
  | '-' :: rest =>
    let ds := rest.takeWhile Char.isDigit
    let t := rest.dropWhile Char.isDigit
    if ds.isEmpty then none else some (-(Int.ofNat (foldDigits ds)), t)
  | _ =>
    let ds := s.takeWhile Char.isDigit
    let t := s.dropWhile Char.isDigit
    if ds.isEmpty then none else some (Int.ofNat (foldDigits ds), t)

mutual

/-- Parse one JSON value (after skipping leading whitespace). -/
def parseVal : Nat → List Char → Option (JVal × List Char)
  | 0, _ => none
  | fuel + 1, s =>
    let s' := skipJsonWs s
    match s' with
    | [] => none
    | c :: r =>
      if c = '{' then
        let r' := skipJsonWs r
        if r'.head? = some '}' then some (.obj [], r'.tail)
        else parseMembers fuel r' []
      else if c = '[' then
        let r' := skipJsonWs r
        if r'.head? = some ']' then some (.arr [], r'.tail)
        else parseItems fuel r' []
      else if c = '"' then
        match parseStringBody r with
        | some (cs, t) => some (.str cs, t)
        | none => none
      else if c = 't' then
        match stripPfx ("rue".toList) r with
        | some t => some (.bool true, t)
        | none => none
      else if c = 'f' then
        match stripPfx ("alse".toList) r with
        | some t => some (.bool false, t)
        | none => none
      else if c = 'n' then
        match stripPfx ("ull".toList) r with
        | some t => some (.null, t)
        | none => none
      else
        match parseNum s' with
        | some (n, t) => some (.num n, t)
        | none => none

/-- Parse the members of an object, positioned at the start of a key. -/
def parseMembers : Nat → List Char → List (List Char × JVal) →
    Option (JVal × List Char)
  | 0, _, _ => none
  | fuel + 1, s, acc =>
    if s.head? = some '"' then
      match parseStringBody s.tail with
      | none => none
      | some (k, r1) =>
        let r2 := skipJsonWs r1
        if r2.head? = some ':' then
          match parseVal fuel r2.tail with
          | none => none
          | some (v, r3) =>
            let r4 := skipJsonWs r3
            if r4.head? = some ',' then
              parseMembers fuel (skipJsonWs r4.tail) (acc ++ [(k, v)])
            else if r4.head? = some '}' then
              some (.obj (acc ++ [(k, v)]), r4.tail)
            else none
        else none
    else none

/-- Parse the items of an array, positioned at the start of a value. -/
def parseItems : Nat → List Char → List JVal → Option (JVal × List Char)
  | 0, _, _ => none
  | fuel + 1, s, acc =>
    match parseVal fuel s with
    | none => none
    | some (v, r) =>
      let r2 := skipJsonWs r
      if r2.head? = some ',' then
        parseItems fuel r2.tail (acc ++ [v])
      else if r2.head? = some ']' then
        some (.arr (acc ++ [v]), r2.tail)
      else none

end

/-- Model of `json.loads`: parse one value and require only whitespace after. -/
def loads (s : List Char) : Option JVal :=
  match parseVal (s.length + 1) s with
  | some (v, rest) => if (skipJsonWs rest).isEmpty then some v else none
  | none => none

/-- Fuel-indexed decimal-digit helper; the fuel never runs out when it starts
at the number itself. -/
def natCharsF : Nat → Nat → List Char
  | 0, n => [Char.ofNat (48 + n % 10)]
  | fuel + 1, n =>
    if n < 10 then [Char.ofNat (48 + n)]
    else natCharsF fuel (n / 10) ++ [Char.ofNat (48 + n % 10)]

/-- Decimal digits of a natural number. -/
def natChars (n : Nat) : List Char := natCharsF n n

theorem natCharsF_fuel : ∀ f1 f2 n : Nat, n ≤ f1 → n ≤ f2 →
    natCharsF f1 n = natCharsF f2 n := by
  intro f1
  induction f1 with
  | zero =>
    intro f2 n h1 h2
    have hn : n = 0 := by omega
    subst hn
    cases f2 <;> rfl
  | succ f1 ih =>
    intro f2 n h1 h2
    cases f2 with
    | zero =>
      have hn : n = 0 := by omega
      subst hn
      rfl
    | succ f2 =>
      simp only [natCharsF]
      by_cases hn : n < 10
      · rw [if_pos hn, if_pos hn]
      · rw [if_neg hn, if_neg hn, ih f2 (n / 10) (by omega) (by omega)]

theorem natChars_eq (n : Nat) : natChars n =
    if n < 10 then [Char.ofNat (48 + n)]
    else natChars (n / 10) ++ [Char.ofNat (48 + n % 10)] := by
  show natCharsF n n = _
  by_cases hn : n < 10
  · rw [if_pos hn]
    cases n with
    | zero => rfl
    | succ m =>
      simp only [natCharsF]
      rw [if_pos hn]
  · rw [if_neg hn]
    cases n with
    | zero => exact absurd (by omega) hn
    | succ m =>
      simp only [natCharsF]
      rw [if_neg hn,
        natCharsF_fuel m ((m + 1) / 10) ((m + 1) / 10) (by omega) le_rfl]
      rfl

/-- Decimal representation of an integer (Python `repr`). -/
def intChars (n : Int) : List Char :=
  if n < 0 then '-' :: natChars n.natAbs else natChars n.toNat

mutual

/-- Model of `json.dumps` with default separators on model-scope values. -/
def dumps : JVal → List Char
  | .null => "null".toList
  | .bool true => "true".toList
  | .bool false => "false".toList
  | .num n => intChars n
  | .str s => '"' :: (s ++ ['"'])
  | .arr xs => '[' :: (dumpsItems xs ++ [']'])
  | .obj ps => '{' :: (dumpsMembers ps ++ ['}'])

def dumpsItems : List JVal → List Char
  | [] => []
  | [x] => dumps x
  | x :: y :: r => dumps x ++ (", ".toList ++ dumpsItems (y :: r))

def dumpsMembers : List (List Char × JVal) → List Char
  | [] => []
  | [(k, v)] => '"' :: (k ++ ('"' :: ':' :: ' ' :: dumps v))
  | (k, v) :: q :: r =>
    '"' :: (k ++ ('"' :: ':' :: ' ' :: dumps v)) ++ (", ".toList ++ dumpsMembers (q :: r))

end

/-- Model-scope string characters: printable ASCII, no quote, no backslash. -/
def wfStrChar (c : Char) : Bool :=
  decide (0x20 ≤ c.toNat) && decide (c.toNat ≤ 0x7e) && c ≠ '"' && c ≠ '\\'

mutual

/-- Model-scope JSON values. -/
def wfJ : JVal → Bool
  | .null => true
  | .bool _ => true
  | .num _ => true
  | .str s => s.all wfStrChar
  | .arr xs => wfItems xs
  | .obj ps => wfMembers ps

def wfItems : List JVal → Bool
  | [] => true
  | x :: r => wfJ x && wfItems r

def wfMembers : List (List Char × JVal) → Bool
  | [] => true
  | (k, v) :: r => k.all wfStrChar && wfJ v && wfMembers r

end

mutual

def jsize : JVal → Nat
  | .null => 1
  | .bool _ => 1
  | .num _ => 1
  | .str _ => 1
  | .arr xs => 1 + isize xs
  | .obj ps => 1 + msize ps

def isize : List JVal → Nat
  | [] => 0
  | x :: r => 1 + jsize x + isize r

def msize : List (List Char × JVal) → Nat
  | [] => 0
  | (_, v) :: r => 1 + jsize v + msize r

end

/-! ### The `extract_json` pipeline -/

/-- Leftmost occurrence index of `pat` in a list (Python `str.find`). -/
def findIn (pat : List Char) : List Char → Option Nat
  | [] => if pat.isEmpty then some 0 else none
  | c :: rest =>
    if pat.isPrefixOf (c :: rest) then some 0
    else (findIn pat rest).map (· + 1)

/-- Python `text.find(pat, i)`. -/
def findFrom (pat s : List Char) (i : Nat) : Option Nat :=
  (findIn pat (s.drop i)).map (· + i)

/-- Rightmost occurrence index of a character (Python `str.rfind` on 1 char). -/
def rfindChar (c : Char) : List Char → Option Nat
  | [] => none
  | x :: rest =>
    match rfindChar c rest with
    | some j => some (j + 1)
    | none => if x = c then some 0 else none

/-- Python slice `s[a:b]` for natural bounds. -/
def pySlice (a b : Nat) (s : List Char) : List Char := (s.take b).drop a

/-- `normalize_candidate` (llm_client.py lines 216-222). -/
def normalizeCandidate (c : List Char) : List Char :=
  let stripped := trimWs c
  if ("json\n".toList).isPrefixOf (stripped.map Char.toLower) then
    trimLeftWs (stripped.drop 5)
  else stripped

/-- `add_candidate` (lines 212-214): keep a candidate only when non-blank. -/
def addCandidate (c : List Char) : List (List Char) :=
  if (trimWs c).isEmpty then [] else [trimWs c]

/-- The fenced-block scanning loop for one fence marker (lines 225-233). -/
def harvest (fence text : List Char) : Nat → Option Nat → List (List Char)
  | 0, _ => []
  | _, none => []
  | fuel + 1, some start =>
    let blockStart := start + fence.length
    match findFrom ("```".toList) text blockStart with
    | none => []
    | some e =>
      addCandidate (normalizeCandidate (pySlice blockStart e text)) ++
        harvest fence text fuel (findFrom fence text (e + 3))

def fenceCandidates (fence text : List Char) : List (List Char) :=
  harvest fence text (text.length + 1) (findFrom fence text 0)

/-- The first-`{`-to-last-`}` slice candidate (lines 239-242). -/
def braceSliceCandidate (text : List Char) : List (List Char) :=
  match findIn ['{'] text, rfindChar '}' text with
  | some f, some l =>
    if l > f then addCandidate (normalizeCandidate (pySlice f (l + 1) text)) else []
  | _, _ => []

/-- All candidates, in the order the code accumulates them. -/
def candidates (text : List Char) : List (List Char) :=
  fenceCandidates ("```json".toList) text ++
  fenceCandidates ("```JSON".toList) text ++
  fenceCandidates ("```".toList) text ++
  addCandidate (normalizeCandidate text) ++
  braceSliceCandidate text

/-- Fuel-indexed body of the trailing-comma repair; the fuel never runs out
when it starts at the length of the list. -/
def rtcF : Nat → List Char → List Char
  | 0, l => l
  | _ + 1, [] => []
  | fuel + 1, c :: rest =>
    if c = ',' then
      match rest.dropWhile isReWs with
      | b :: r3 =>
        if b = '}' ∨ b = ']' then b :: rtcF fuel r3 else c :: rtcF fuel rest
      | [] => c :: rtcF fuel rest
    else c :: rtcF fuel rest

/-- The trailing-comma repair `re.sub(",\s*([}\]])", "\1", ...)` (line 249). -/
def rtc (l : List Char) : List Char := rtcF l.length l

theorem rtcF_fuel : ∀ fuel fuel2 : Nat, ∀ l : List Char,
    l.length ≤ fuel → l.length ≤ fuel2 → rtcF fuel l = rtcF fuel2 l := by
  intro fuel
  induction fuel with
  | zero =>
    intro fuel2 l h1 h2
    have hl : l = [] := List.eq_nil_of_length_eq_zero (by omega)
    subst hl
    cases fuel2 <;> rfl
  | succ fuel ih =>
    intro fuel2 l h1 h2
    cases l with
    | nil => cases fuel2 <;> rfl
    | cons c rest =>
      cases fuel2 with
      | zero => simp at h2
      | succ f2 =>
        simp only [rtcF]
        have hr : rest.length ≤ fuel := by simp at h1; omega
        have hr2 : rest.length ≤ f2 := by simp at h2; omega
        by_cases hc : c = ','
        · rw [if_pos hc, if_pos hc]
          cases hdw : rest.dropWhile isReWs with
          | nil =>
            show c :: rtcF fuel rest = c :: rtcF f2 rest
            rw [ih _ _ hr hr2]
          | cons b r3 =>
            show (if b = '}' ∨ b = ']' then b :: rtcF fuel r3 else c :: rtcF fuel rest)
                = (if b = '}' ∨ b = ']' then b :: rtcF f2 r3 else c :: rtcF f2 rest)
            have hlen : r3.length < rest.length + 1 := by
              have hs := (List.dropWhile_suffix isReWs (l := rest)).length_le
              rw [hdw] at hs
              simp at hs
              omega
            by_cases hb : b = '}' ∨ b = ']'
            · rw [if_pos hb, if_pos hb, ih f2 r3 (by omega) (by omega)]
            · rw [if_neg hb, if_neg hb, ih _ _ hr hr2]
        · rw [if_neg hc, if_neg hc, ih _ _ hr hr2]

def joinNl : List (List Char) → List Char
  | [] => []
  | [l] => l
  | l :: l2 :: rest => l ++ '\n' :: joinNl (l2 :: rest)

/-- The line-oriented `//`-comment stripping (lines 258-274). -/
def stripCommentLine (line : List Char) : List Char :=
  match findIn ("//".toList) line with
  | none => line
  | some cs =>
    if line.count '"' % 2 = 0 then
      let lastQuote : Int :=
        match rfindChar '"' line with
        | some i => (i : Int)
        | none => -1
      if (cs : Int) > lastQuote then line.take cs else line
    else line

def stripComments (c : List Char) : List Char :=
  joinNl ((splitNl c).map stripCommentLine)

/-- One candidate attempt: verbatim, then trailing-comma fix, then comment
    stripping with the comma fix re-applied (lines 244-283). -/
def tryCandidate (c : List Char) : Option JVal :=
  match loads c with
  | some v => some v
  | none =>
    match loads (rtc c) with
    | some v => some v
    | none => loads (rtc (stripComments c))

def firstSome : List (List Char) → Option JVal
  | [] => none
  | c :: rest =>
    match tryCandidate c with
    | some v => some v
    | none => firstSome rest

/-- `extract_json` (llm_client.py lines 196-320): the value returned to the
    caller, `none` modelling the `return None` failure paths. -/
def extractJson (text : List Char) : Option JVal :=
  if text.isEmpty then none else firstSome (candidates text)

/-! ### Basic lemmas about the string helpers -/

theorem stripPfx_append (p t : List Char) : stripPfx p (p ++ t) = some t := by
  induction p with
  | nil => rfl
  | cons c cs ih => simp [stripPfx, ih]

theorem stripPfx_sfx {p l t : List Char} (h : stripPfx p l = some t) : t <:+ l := by
  induction p generalizing l with
  | nil =>
    simp [stripPfx] at h
    subst h
    exact List.suffix_refl l
  | cons c cs ih =>
    cases l with
    | nil => simp [stripPfx] at h
    | cons x xs =>
      simp only [stripPfx] at h
      split at h
      · exact (ih h).trans (List.suffix_cons x xs)
      · simp at h

theorem trimWs_within (l : List Char) : trimWs l <:+: l := by
  unfold trimWs
  have h1 : (l.dropWhile isReWs) <:+ l := List.dropWhile_suffix isReWs
  have h2 : ((l.dropWhile isReWs).reverse.dropWhile isReWs) <:+ (l.dropWhile isReWs).reverse :=
    List.dropWhile_suffix isReWs
  have h3 : ((l.dropWhile isReWs).reverse.dropWhile isReWs).reverse
      <+: ((l.dropWhile isReWs).reverse).reverse :=
    List.reverse_prefix.mpr h2
  rw [List.reverse_reverse] at h3
  exact List.IsInfix.trans h3.isInfix h1.isInfix

theorem mem_of_trimWs {c : Char} {l : List Char} (h : c ∈ trimWs l) : c ∈ l :=
  (trimWs_within l).subset h

theorem dropWhile_eq_self_of_head {p : Char → Bool} {c : Char} {l : List Char}
    (hc : p c = false) : (c :: l).dropWhile p = c :: l := by
  simp [List.dropWhile_cons, hc]

theorem trimWs_eq_self {c d : Char} {mid : List Char}
    (hc : isReWs c = false) (hd : isReWs d = false) :
    trimWs (c :: (mid ++ [d])) = c :: (mid ++ [d]) := by
  unfold trimWs
  rw [dropWhile_eq_self_of_head hc]
  have : (c :: (mid ++ [d])).reverse = d :: (mid.reverse ++ [c]) := by
    simp
  rw [this, dropWhile_eq_self_of_head hd]
  simp

theorem trimWs_wrap {c d : Char} {mid : List Char} {a b : Char}
    (hc : isReWs c = false) (hd : isReWs d = false)
    (ha : isReWs a = true) (hb : isReWs b = true) :
    trimWs (a :: ((c :: (mid ++ [d])) ++ [b])) = c :: (mid ++ [d]) := by
  unfold trimWs
  have h1 : (a :: ((c :: (mid ++ [d])) ++ [b])).dropWhile isReWs
      = (c :: (mid ++ [d])) ++ [b] := by
    rw [List.dropWhile_cons]
    simp only [ha, if_true]
    have : (c :: (mid ++ [d])) ++ [b] = c :: (mid ++ [d] ++ [b]) := by simp
    rw [this, dropWhile_eq_self_of_head hc]
  rw [h1]
  have h2 : ((c :: (mid ++ [d])) ++ [b]).reverse = b :: (d :: (mid.reverse ++ [c])) := by
    simp
  rw [h2, List.dropWhile_cons]
  simp only [hb, if_true]
  rw [dropWhile_eq_self_of_head hd]
  simp

theorem findIn_eq_none {pat s : List Char} (hne : pat ≠ [])
    (h : ¬ (pat <:+: s)) : findIn pat s = none := by
  induction s with
  | nil =>
    unfold findIn
    simp [List.isEmpty_iff, hne]
  | cons c rest ih =>
    unfold findIn
    have hp : pat.isPrefixOf (c :: rest) = false := by
      by_contra hp
      have : pat <+: c :: rest := List.isPrefixOf_iff_prefix.mp (by simpa using hp)
      exact h this.isInfix
    rw [hp]
    simp only [Bool.false_eq_true, if_false]
    rw [ih (fun hinf => h (hinf.trans (List.suffix_cons c rest).isInfix))]
    rfl

theorem rfindChar_eq_none {c : Char} {l : List Char} (h : c ∉ l) :
    rfindChar c l = none := by
  induction l with
  | nil => rfl
  | cons x xs ih =>
    unfold rfindChar
    rw [ih (fun hm => h (List.mem_cons_of_mem x hm))]
    have : ¬ x = c := fun he => h (he ▸ List.mem_cons_self x xs)
    simp [this]

theorem harvest_none (fence text : List Char) (fuel : Nat) :
    harvest fence text fuel none = [] := by
  cases fuel <;> rfl

theorem rtc_nil : rtc [] = [] := rfl

theorem rtc_comma_bracket {rest : List Char} {b : Char} {r3 : List Char}
    (hdw : rest.dropWhile isReWs = b :: r3) (hb : b = '}' ∨ b = ']') :
    rtc (',' :: rest) = b :: rtc r3 := by
  show rtcF (rest.length + 1) (',' :: rest) = b :: rtcF r3.length r3
  simp only [rtcF]
  rw [if_pos trivial, hdw]
  show (if b = '}' ∨ b = ']' then b :: rtcF rest.length r3
      else ',' :: rtcF rest.length rest) = b :: rtcF r3.length r3
  rw [if_pos hb]
  have hlen : r3.length < rest.length + 1 := by
    have hs := (List.dropWhile_suffix isReWs (l := rest)).length_le
    rw [hdw] at hs
    simp at hs
    omega
  rw [rtcF_fuel rest.length r3.length r3 (by omega) le_rfl]

theorem rtc_comma_nb {rest : List Char} {b : Char} {r3 : List Char}
    (hdw : rest.dropWhile isReWs = b :: r3) (hb : ¬(b = '}' ∨ b = ']')) :
    rtc (',' :: rest) = ',' :: rtc rest := by
  show rtcF (rest.length + 1) (',' :: rest) = ',' :: rtcF rest.length rest
  simp only [rtcF]
  rw [if_pos trivial, hdw]
  show (if b = '}' ∨ b = ']' then b :: rtcF rest.length r3
      else ',' :: rtcF rest.length rest) = ',' :: rtcF rest.length rest
  rw [if_neg hb]

theorem rtc_comma_ws {rest : List Char} (hdw : rest.dropWhile isReWs = []) :
    rtc (',' :: rest) = ',' :: rtc rest := by
  show rtcF (rest.length + 1) (',' :: rest) = ',' :: rtcF rest.length rest
  simp only [rtcF]
  rw [if_pos trivial, hdw]

theorem rtc_cons {c : Char} {rest : List Char} (hc : ¬ c = ',') :
    rtc (c :: rest) = c :: rtc rest := by
  show rtcF (rest.length + 1) (c :: rest) = c :: rtcF rest.length rest
  simp only [rtcF]
  rw [if_neg hc]

theorem rtcF_subset {c : Char} : ∀ fuel : Nat, ∀ l : List Char,
    c ∈ rtcF fuel l → c ∈ l := by
  intro fuel
  induction fuel with
  | zero => intro l h; exact h
  | succ fuel ih =>
    intro l h
    cases l with
    | nil => exact h
    | cons a rest =>
      simp only [rtcF] at h
      by_cases ha : a = ','
      · rw [if_pos ha] at h
        cases hdw : rest.dropWhile isReWs with
        | nil =>
          rw [hdw] at h
          have h2 : c ∈ a :: rtcF fuel rest := h
          rcases List.mem_cons.mp h2 with he | hm
          · exact he ▸ List.mem_cons_self a rest
          · exact List.mem_cons_of_mem a (ih rest hm)
        | cons b r3 =>
          rw [hdw] at h
          have h2 : c ∈ (if b = '}' ∨ b = ']' then b :: rtcF fuel r3
              else a :: rtcF fuel rest) := h
          by_cases hb : b = '}' ∨ b = ']'
          · rw [if_pos hb] at h2
            rcases List.mem_cons.mp h2 with he | hm
            · subst he
              exact List.mem_cons_of_mem a
                ((List.dropWhile_suffix isReWs).subset (hdw ▸ List.mem_cons_self c r3))
            · exact List.mem_cons_of_mem a
                ((List.dropWhile_suffix isReWs).subset
                  (hdw ▸ List.mem_cons_of_mem b (ih r3 hm)))
          · rw [if_neg hb] at h2
            rcases List.mem_cons.mp h2 with he | hm
            · exact he ▸ List.mem_cons_self a rest
            · exact List.mem_cons_of_mem a (ih rest hm)
      · rw [if_neg ha] at h
        rcases List.mem_cons.mp h with he | hm
        · exact he ▸ List.mem_cons_self a rest
        · exact List.mem_cons_of_mem a (ih rest hm)

theorem rtc_subset {c : Char} : ∀ {l : List Char}, c ∈ rtc l → c ∈ l :=
  fun {l} h => rtcF_subset l.length l h

/-! ### Parser failure on an object truncated before any closing brace -/

theorem skipJsonWs_sfx (s : List Char) : skipJsonWs s <:+ s :=
  List.dropWhile_suffix isJsonWs

theorem parseStringBody_sfx : ∀ {s k t : List Char},
    parseStringBody s = some (k, t) → t <:+ s := by
  intro s
  induction s with
  | nil => intro k t h; simp [parseStringBody] at h
  | cons c rest ih =>
    intro k t h
    unfold parseStringBody at h
    split at h
    · injection h with h'
      injection h' with h1 h2
      subst h2
      exact List.suffix_cons c rest
    · split at h
      · exact absurd h (by simp)
      · split at h
        · rename_i cs t' heq
          injection h with h'
          injection h' with h1 h2
          subst h2
          exact (ih heq).trans (List.suffix_cons c rest)
        · exact absurd h (by simp)

theorem parseNum_sfx {s : List Char} {n : Int} {t : List Char}
    (h : parseNum s = some (n, t)) : t <:+ s := by
  unfold parseNum at h
  split at h
  · rename_i rest
    simp only [] at h
    split at h
    · exact absurd h (by simp)
    · injection h with h'
      injection h' with h1 h2
      subst h2
      exact (List.dropWhile_suffix Char.isDigit).trans (List.suffix_cons '-' rest)
  · simp only [] at h
    split at h
    · exact absurd h (by simp)
    · injection h with h'
      injection h' with h1 h2
      subst h2
      exact List.dropWhile_suffix Char.isDigit

theorem parse_sfx : ∀ fuel : Nat,
    (∀ s : List Char, ∀ v : JVal, ∀ t : List Char,
      parseVal fuel s = some (v, t) → t <:+ s)
    ∧ (∀ s : List Char, ∀ acc, ∀ v : JVal, ∀ t : List Char,
      parseMembers fuel s acc = some (v, t) → t <:+ s)
    ∧ (∀ s : List Char, ∀ acc, ∀ v : JVal, ∀ t : List Char,
      parseItems fuel s acc = some (v, t) → t <:+ s) := by
  intro fuel
  induction fuel with
  | zero =>
    refine ⟨?_, ?_, ?_⟩ <;> (intro s; intros; simp_all [parseVal, parseMembers, parseItems])
  | succ fuel ih =>
    obtain ⟨ihV, ihM, ihI⟩ := ih
    refine ⟨?_, ?_, ?_⟩
    · intro s v t h
      unfold parseVal at h
      simp only [] at h
      split at h
      · simp at h
      · rename_i c r hs'
        have hsfx : c :: r <:+ s := hs' ▸ skipJsonWs_sfx s
        have hrs : r <:+ s := (List.suffix_cons c r).trans hsfx
        split at h
        · split at h
          · injection h with h'
            injection h' with h1 h2
            subst h2
            exact (List.tail_suffix _).trans ((skipJsonWs_sfx r).trans hrs)
          · exact (ihM _ _ _ _ h).trans ((skipJsonWs_sfx r).trans hrs)
        · split at h
          · split at h
            · injection h with h'
              injection h' with h1 h2
              subst h2
              exact (List.tail_suffix _).trans ((skipJsonWs_sfx r).trans hrs)
            · exact (ihI _ _ _ _ h).trans ((skipJsonWs_sfx r).trans hrs)
          · split at h
            · split at h
              · rename_i cs t' heq
                injection h with h'
                injection h' with h1 h2
                subst h2
                exact (parseStringBody_sfx heq).trans hrs
              · simp at h
            · split at h
              · split at h
                · rename_i t' heq
                  injection h with h'
                  injection h' with h1 h2
                  subst h2
                  exact (stripPfx_sfx heq).trans hrs
                · simp at h
              · split at h
                · split at h
                  · rename_i t' heq
                    injection h with h'
                    injection h' with h1 h2
                    subst h2
                    exact (stripPfx_sfx heq).trans hrs
                  · simp at h
                · split at h
                  · split at h
                    · rename_i t' heq
                      injection h with h'
                      injection h' with h1 h2
                      subst h2
                      exact (stripPfx_sfx heq).trans hrs
                    · simp at h
                  · split at h
                    · rename_i n t' heq
                      injection h with h'
                      injection h' with h1 h2
                      subst h2
                      exact (parseNum_sfx heq).trans (skipJsonWs_sfx s)
                    · simp at h
    · intro s acc v t h
      unfold parseMembers at h
      simp only [] at h
      split at h
      · rename_i hq
        split at h
        · simp at h
        · rename_i k r1 heq
          have hr1 : r1 <:+ s := (parseStringBody_sfx heq).trans (List.tail_suffix s)
          split at h
          · split at h
            · simp at h
            · rename_i v1 r3 heqV
              have hr3 : r3 <:+ s :=
                (ihV _ _ _ heqV).trans ((List.tail_suffix _).trans
                  ((skipJsonWs_sfx r1).trans hr1))
              split at h
              · exact (ihM _ _ _ _ h).trans
                  ((skipJsonWs_sfx _).trans ((List.tail_suffix _).trans
                    ((skipJsonWs_sfx r3).trans hr3)))
              · split at h
                · injection h with h'
                  injection h' with h1 h2
                  subst h2
                  exact (List.tail_suffix _).trans ((skipJsonWs_sfx r3).trans hr3)
                · simp at h
          · simp at h
      · simp at h
    · intro s acc v t h
      unfold parseItems at h
      simp only [] at h
      split at h
      · simp at h
      · rename_i v1 r heqV
        have hr : r <:+ s := ihV _ _ _ heqV
        split at h
        · exact (ihI _ _ _ _ h).trans
            ((List.tail_suffix _).trans ((skipJsonWs_sfx r).trans hr))
        · split at h
          · injection h with h'
            injection h' with h1 h2
            subst h2
            exact (List.tail_suffix _).trans ((skipJsonWs_sfx r).trans hr)
          · simp at h

/-! ### Idempotence of `strip()` -/

theorem trimWs_idem (l : List Char) : trimWs (trimWs l) = trimWs l := by
  have hA : (l.dropWhile isReWs).dropWhile isReWs = l.dropWhile isReWs :=
    List.dropWhile_idempotent _ _
  have hC : ((l.dropWhile isReWs).reverse.dropWhile isReWs).dropWhile isReWs
      = (l.dropWhile isReWs).reverse.dropWhile isReWs :=
    List.dropWhile_idempotent _ _
  have hpre : ((l.dropWhile isReWs).reverse.dropWhile isReWs).reverse
      <+: l.dropWhile isReWs := by
    have h2 : ((l.dropWhile isReWs).reverse.dropWhile isReWs)
        <:+ (l.dropWhile isReWs).reverse :=
      List.dropWhile_suffix isReWs
    have h3 := List.reverse_prefix.mpr h2
    rwa [List.reverse_reverse] at h3
  have hstep1 : (((l.dropWhile isReWs).reverse.dropWhile isReWs).reverse).dropWhile isReWs
      = ((l.dropWhile isReWs).reverse.dropWhile isReWs).reverse := by
    cases hCr : ((l.dropWhile isReWs).reverse.dropWhile isReWs).reverse with
    | nil => simp
    | cons c rest =>
      have hcl : c :: rest <+: l.dropWhile isReWs := hCr ▸ hpre
      obtain ⟨t, ht⟩ := hcl
      have hA' := hA
      rw [← ht] at hA'
      by_cases hc : isReWs c = true
      · exfalso
        rw [show (c :: rest) ++ t = c :: (rest ++ t) from rfl] at hA'
        rw [show (c :: (rest ++ t)).dropWhile isReWs = (rest ++ t).dropWhile isReWs by
          simp [List.dropWhile_cons, hc]] at hA'
        have hle : ((rest ++ t).dropWhile isReWs).length ≤ (rest ++ t).length :=
          (List.dropWhile_suffix isReWs).length_le
        rw [hA'] at hle
        simp at hle
      · have hcf : isReWs c = false := by revert hc; cases isReWs c <;> simp
        exact dropWhile_eq_self_of_head hcf
  unfold trimWs
  rw [hstep1, List.reverse_reverse, hC]

/-! ### Line structure lemmas for the comment-stripping repair -/

theorem splitNl_cons_head {c : Char} (rest : List Char) (hc : ¬ c = '\n') :
    ∃ l0 ls, splitNl (c :: rest) = (c :: l0) :: ls := by
  unfold splitNl
  rw [if_neg hc]
  cases h : splitNl rest with
  | nil => exact ⟨[], [], rfl⟩
  | cons l ls => exact ⟨l, ls, rfl⟩

theorem mem_splitNl {x : Char} : ∀ {s l : List Char},
    l ∈ splitNl s → x ∈ l → x ∈ s := by
  intro s
  induction s with
  | nil =>
    intro l hl hx
    simp [splitNl] at hl
    subst hl
    simp at hx
  | cons c rest ih =>
    intro l hl hx
    unfold splitNl at hl
    by_cases hc : c = '\n'
    · rw [if_pos hc] at hl
      rcases List.mem_cons.mp hl with he | hm
      · subst he; simp at hx
      · exact List.mem_cons_of_mem c (ih hm hx)
    · rw [if_neg hc] at hl
      cases hrest : splitNl rest with
      | nil =>
        rw [hrest] at hl
        simp at hl
        subst hl
        simp at hx
        subst hx
        exact List.mem_cons_self _ _
      | cons l1 ls =>
        rw [hrest] at hl
        rcases List.mem_cons.mp hl with he | hm
        · subst he
          rcases List.mem_cons.mp hx with hxc | hxl
          · subst hxc; exact List.mem_cons_self _ _
          · exact List.mem_cons_of_mem c
              (ih (hrest ▸ List.mem_cons_self l1 ls) hxl)
        · exact List.mem_cons_of_mem c
            (ih (hrest ▸ List.mem_cons_of_mem l1 hm) hx)

theorem joinNl_cons_head (c : Char) (m : List Char) (ls : List (List Char)) :
    ∃ u, joinNl ((c :: m) :: ls) = c :: u := by
  cases ls with
  | nil => exact ⟨m, rfl⟩
  | cons l2 rest => exact ⟨m ++ '\n' :: joinNl (l2 :: rest), rfl⟩

theorem mem_joinNl {x : Char} : ∀ {ls : List (List Char)},
    x ∈ joinNl ls → x = '\n' ∨ ∃ l, l ∈ ls ∧ x ∈ l := by
  intro ls
  induction ls with
  | nil => intro h; simp [joinNl] at h
  | cons l rest ih =>
    intro h
    cases rest with
    | nil =>
      right
      exact ⟨l, List.mem_cons_self _ _, by simpa [joinNl] using h⟩
    | cons l2 r2 =>
      simp only [joinNl] at h
      rcases List.mem_append.mp h with h1 | h2
      · right; exact ⟨l, List.mem_cons_self _ _, h1⟩
      · rcases List.mem_cons.mp h2 with he | hm
        · left; exact he
        · rcases ih hm with hnl | ⟨l1, hl1, hx⟩
          · left; exact hnl
          · right; exact ⟨l1, List.mem_cons_of_mem l hl1, hx⟩

theorem stripCommentLine_cons_head {c : Char} (l0 : List Char) (hc : ¬ c = '/') :
    ∃ u, stripCommentLine (c :: l0) = c :: u := by
  unfold stripCommentLine
  have hpf : ("//".toList).isPrefixOf (c :: l0) = false := by
    simp only [List.isPrefixOf, Bool.and_eq_false_iff]
    left
    simp only [beq_eq_false_iff_ne]
    exact fun h => hc h.symm
  have hfi : findIn ("//".toList) (c :: l0)
      = (findIn ("//".toList) l0).map (· + 1) := by
    rw [findIn, hpf]
    simp
  rw [hfi]
  cases hj : findIn ("//".toList) l0 with
  | none => exact ⟨l0, rfl⟩
  | some j =>
    simp only [Option.map, List.take_succ_cons]
    split
    · split
      · exact ⟨l0.take j, rfl⟩
      · exact ⟨l0, rfl⟩
    · exact ⟨l0, rfl⟩

theorem stripCommentLine_subset {x : Char} {l : List Char}
    (h : x ∈ stripCommentLine l) : x ∈ l := by
  unfold stripCommentLine at h
  split at h
  · exact h
  · simp only [] at h
    split at h
    · split at h
      · exact List.take_subset _ _ h
      · exact h
    · exact h

theorem stripComments_mem {x : Char} {c : List Char}
    (h : x ∈ stripComments c) : x = '\n' ∨ x ∈ c := by
  unfold stripComments at h
  rcases mem_joinNl h with hnl | ⟨l, hl, hx⟩
  · exact Or.inl hnl
  · rcases List.mem_map.mp hl with ⟨l0, hl0, hmap⟩
    exact Or.inr (mem_splitNl hl0 (stripCommentLine_subset (hmap ▸ hx)))

theorem stripComments_open (rest : List Char) :
    ∃ u, stripComments ('{' :: rest) = '{' :: u := by
  unfold stripComments
  obtain ⟨l0, ls, hsp⟩ := splitNl_cons_head (c := '{') rest (by decide)
  rw [hsp]
  obtain ⟨u1, hsc⟩ := stripCommentLine_cons_head (c := '{') l0 (by decide)
  rw [List.map_cons, hsc]
  exact joinNl_cons_head '{' u1 _

/-! ### The JSON parser fails on object text with no closing brace -/

theorem parseMembers_no_brace : ∀ fuel : Nat, ∀ s : List Char, ∀ acc,
    '}' ∉ s → parseMembers fuel s acc = none := by
  intro fuel
  induction fuel with
  | zero => intro s acc hnb; rfl
  | succ fuel ih =>
    intro s acc hnb
    unfold parseMembers
    simp only []
    split
    · split
      · rfl
      · rename_i k r1 heq
        have hr1 : r1 <:+ s := (parseStringBody_sfx heq).trans (List.tail_suffix s)
        split
        · split
          · rfl
          · rename_i v1 r3 heqV
            have hr3 : r3 <:+ s :=
              ((parse_sfx fuel).1 _ _ _ heqV).trans ((List.tail_suffix _).trans
                ((skipJsonWs_sfx r1).trans hr1))
            split
            · exact ih _ _ (fun hm => hnb
                (hr3.subset ((List.dropWhile_suffix isJsonWs).subset
                  ((List.tail_suffix _).subset
                    ((List.dropWhile_suffix isJsonWs).subset hm)))))
            · split
              · rename_i hcb
                exact absurd (hr3.subset
                  ((List.dropWhile_suffix isJsonWs).subset
                    (List.mem_of_mem_head? hcb))) hnb
              · rfl
        · rfl
    · rfl

theorem parseVal_open_brace : ∀ fuel : Nat, ∀ r : List Char,
    '}' ∉ ('{' :: r) → parseVal fuel ('{' :: r) = none := by
  intro fuel
  cases fuel with
  | zero => intro r hnb; rfl
  | succ fuel =>
    intro r hnb
    unfold parseVal
    simp only []
    have hskip : skipJsonWs ('{' :: r) = '{' :: r :=
      dropWhile_eq_self_of_head (by decide)
    rw [hskip]
    simp only [if_pos rfl]
    have hnr : '}' ∉ skipJsonWs r := fun hm => hnb
      (List.mem_cons_of_mem '{' ((List.dropWhile_suffix isJsonWs).subset hm))
    rw [if_neg (show ¬ (skipJsonWs r).head? = some '}' from
      fun hcb => hnr (List.mem_of_mem_head? (Option.mem_def.mpr hcb)))]
    exact parseMembers_no_brace fuel _ [] hnr

theorem loads_open_brace {r : List Char} (hnb : '}' ∉ ('{' :: r)) :
    loads ('{' :: r) = none := by
  unfold loads
  rw [parseVal_open_brace _ _ hnb]

/-! ### Candidate harvesting on backtick-free, brace-free text -/

theorem fenceCandidates_none {f text : List Char} (hf : '`' ∈ f)
    (hb : '`' ∉ text) : fenceCandidates f text = [] := by
  have h1 : findIn f text = none :=
    findIn_eq_none (List.ne_nil_of_mem hf) (fun hinf => hb (hinf.subset hf))
  unfold fenceCandidates findFrom
  rw [List.drop_zero, h1]
  exact harvest_none f text _

theorem braceSlice_none {text : List Char} (hnb : '}' ∉ text) :
    braceSliceCandidate text = [] := by
  unfold braceSliceCandidate
  rw [rfindChar_eq_none hnb]
  cases findIn ['{'] text <;> rfl

/-- C5 (counterexample): the frozen claim says every input with unbalanced
braces (more opening than closing) makes `extract_json` report failure.  The
text `\x7b"a": 1\x7d \x7b` has two opening braces and one closing brace, yet the
first-`\x7b`-to-last-`\x7d` slice candidate recovers the embedded object, so
`extract_json` returns it instead of failing. -/
theorem extract_json_unbalanced_cex :
    (("\x7b\"a\": 1\x7d \x7b".toList).count '{'
      > ("\x7b\"a\": 1\x7d \x7b".toList).count '}') ∧
    extractJson ("\x7b\"a\": 1\x7d \x7b".toList)
      = some (.obj [("a".toList, .num 1)]) :=
  ⟨by decide, by rfl⟩

/-- C5 (amended): when the response text's stripped form opens with `\x7b`,
contains no closing brace anywhere, and contains no backtick (so no fenced
candidate arises), every candidate and every repair attempt fails to parse,
and `extract_json` returns `None`. -/
theorem extract_json_no_close_none (text rest : List Char)
    (htrim : trimWs text = '{' :: rest)
    (hnb : '}' ∉ text)
    (hbt : '`' ∉ text) :
    extractJson text = none := by
  have hne : ¬ text.isEmpty = true := by
    intro h
    rw [List.isEmpty_iff] at h
    subst h
    simp [trimWs] at htrim
  have hpf2 : ("json\n".toList).isPrefixOf (('{' :: rest).map Char.toLower)
      = false := by
    simp only [List.map_cons, List.isPrefixOf, Bool.and_eq_false_iff]
    left
    decide
  have hnorm : normalizeCandidate text = '{' :: rest := by
    unfold normalizeCandidate
    simp only []
    rw [htrim, hpf2]
    simp
  have hid : trimWs ('{' :: rest) = '{' :: rest := by
    rw [← htrim]
    exact trimWs_idem text
  have hadd : addCandidate ('{' :: rest) = ['{' :: rest] := by
    unfold addCandidate
    rw [hid]
    simp
  have hcand : candidates text = ['{' :: rest] := by
    unfold candidates
    rw [fenceCandidates_none (by decide) hbt, fenceCandidates_none (by decide) hbt,
        fenceCandidates_none (by decide) hbt, braceSlice_none hnb, hnorm, hadd]
    simp
  have hnb2 : '}' ∉ ('{' :: rest) := by
    intro hm
    rw [← htrim] at hm
    exact hnb (mem_of_trimWs hm)
  have h1 : loads ('{' :: rest) = none := loads_open_brace hnb2
  have hrtc : rtc ('{' :: rest) = '{' :: rtc rest := rtc_cons (by decide)
  have hnb3 : '}' ∉ ('{' :: rtc rest) := by
    intro hm
    rcases List.mem_cons.mp hm with he | hm2
    · exact absurd he (by decide)
    · exact hnb2 (List.mem_cons_of_mem _ (rtc_subset hm2))
  have h2 : loads (rtc ('{' :: rest)) = none := by
    rw [hrtc]
    exact loads_open_brace hnb3
  obtain ⟨u, hsc⟩ := stripComments_open rest
  have hnb4 : '}' ∉ ('{' :: u) := by
    intro hm
    have hin : '}' ∈ stripComments ('{' :: rest) := by rw [hsc]; exact hm
    rcases stripComments_mem hin with hnl | hmem
    · exact absurd hnl (by decide)
    · exact hnb2 hmem
  have hrtc2 : rtc ('{' :: u) = '{' :: rtc u := rtc_cons (by decide)
  have hnb5 : '}' ∉ ('{' :: rtc u) := by
    intro hm
    rcases List.mem_cons.mp hm with he | hm2
    · exact absurd he (by decide)
    · exact hnb4 (List.mem_cons_of_mem _ (rtc_subset hm2))
  have h3 : loads (rtc (stripComments ('{' :: rest))) = none := by
    rw [hsc, hrtc2]
    exact loads_open_brace hnb5
  have htry : tryCandidate ('{' :: rest) = none := by
    unfold tryCandidate
    rw [h1, h2, h3]
  unfold extractJson
  rw [if_neg hne, hcand]
  unfold firstSome
  rw [htry]
  rfl

/-- Witness: the mid-object truncation `\x7b"a": 1` (no closing brace, no
backtick) satisfies the amended hypotheses and indeed yields `None`. -/
theorem extract_json_no_close_none_witness :
    trimWs ("\x7b\"a\": 1".toList) = '{' :: ("\"a\": 1".toList) ∧
    '}' ∉ ("\x7b\"a\": 1".toList) ∧ '`' ∉ ("\x7b\"a\": 1".toList) ∧
    extractJson ("\x7b\"a\": 1".toList) = none :=
  ⟨by decide, by decide, by decide,
    extract_json_no_close_none ("\x7b\"a\": 1".toList) ("\"a\": 1".toList)
      (by decide) (by decide) (by decide)⟩

/-! ### Round-trip of the serializer through the parser: scalar pieces -/

theorem rtcF_nil : ∀ fuel : Nat, rtcF fuel [] = [] := by
  intro fuel
  cases fuel <;> rfl

/-- The continuation after a serialized number must not begin with a digit. -/
def noDigitStart (rest : List Char) : Prop :=
  ∀ d, rest.head? = some d → d.isDigit = false

theorem takeWhile_digit_nil {rest : List Char} (h : noDigitStart rest) :
    rest.takeWhile Char.isDigit = [] := by
  cases rest with
  | nil => rfl
  | cons a t => simp [List.takeWhile_cons, h a rfl]

theorem dropWhile_digit_self {rest : List Char} (h : noDigitStart rest) :
    rest.dropWhile Char.isDigit = rest := by
  cases rest with
  | nil => rfl
  | cons a t => simp [List.dropWhile_cons, h a rfl]

theorem skipJsonWs_ws_append {sp X : List Char}
    (hsp : ∀ x ∈ sp, isJsonWs x = true) {c : Char}
    (hX : X.head? = some c) (hc : isJsonWs c = false) :
    skipJsonWs (sp ++ X) = X := by
  unfold skipJsonWs
  rw [List.dropWhile_append_of_pos hsp]
  cases X with
  | nil => simp at hX
  | cons a t =>
    injection hX with h
    subst h
    exact dropWhile_eq_self_of_head hc

theorem parseStringBody_wf : ∀ {s : List Char}, (∀ x ∈ s, wfStrChar x = true) →
    ∀ rest, parseStringBody (s ++ '"' :: rest) = some (s, rest) := by
  intro s
  induction s with
  | nil =>
    intro _ rest
    unfold parseStringBody
    simp
  | cons c cs ih =>
    intro hwf rest
    have hc : 0x20 ≤ c.toNat ∧ c.toNat ≤ 0x7e ∧ ¬ c = '"' ∧ ¬ c = '\\' := by
      have h0 := hwf c (List.mem_cons_self c cs)
      unfold wfStrChar at h0
      simp only [Bool.and_eq_true, decide_eq_true_eq, ne_eq] at h0
      exact ⟨h0.1.1.1, h0.1.1.2, h0.1.2, h0.2⟩
    rw [List.cons_append]
    unfold parseStringBody
    rw [if_neg hc.2.2.1, if_neg (by push_neg; exact ⟨hc.2.2.2, by omega⟩)]
    rw [ih (fun x hx => hwf x (List.mem_cons_of_mem c hx)) rest]

theorem ofNat_digit_isDigit : ∀ k : Nat, k < 10 →
    (Char.ofNat (48 + k)).isDigit = true := by
  intro k hk
  interval_cases k <;> decide

theorem digitVal_ofNat : ∀ k : Nat, k < 10 →
    digitVal (Char.ofNat (48 + k)) = k := by
  intro k hk
  interval_cases k <;> decide

theorem natChars_all_digit : ∀ m : Nat, ∀ x ∈ natChars m, x.isDigit = true := by
  intro m
  induction m using Nat.strong_induction_on with
  | _ m ih =>
    intro x hx
    rw [natChars_eq] at hx
    split at hx
    · rename_i h10
      simp at hx
      subst hx
      exact ofNat_digit_isDigit m h10
    · rename_i h10
      rcases List.mem_append.mp hx with h1 | h2
      · exact ih (m / 10) (Nat.div_lt_self (by omega) (by omega)) x h1
      · simp at h2
        subst h2
        exact ofNat_digit_isDigit (m % 10) (Nat.mod_lt _ (by omega))

theorem natChars_head_digit : ∀ m : Nat,
    ∃ d t, natChars m = d :: t ∧ d.isDigit = true := by
  intro m
  induction m using Nat.strong_induction_on with
  | _ m ih =>
    rw [natChars_eq]
    split
    · rename_i h10
      exact ⟨_, _, rfl, ofNat_digit_isDigit m h10⟩
    · rename_i h10
      obtain ⟨d, t, heq, hd⟩ := ih (m / 10) (Nat.div_lt_self (by omega) (by omega))
      exact ⟨d, t ++ [Char.ofNat (48 + m % 10)], by rw [heq]; rfl, hd⟩

theorem foldDigits_append (ds : List Char) (d : Char) :
    foldDigits (ds ++ [d]) = foldDigits ds * 10 + digitVal d := by
  unfold foldDigits
  rw [List.foldl_append]
  rfl

theorem foldDigits_natChars : ∀ m : Nat, foldDigits (natChars m) = m := by
  intro m
  induction m using Nat.strong_induction_on with
  | _ m ih =>
    rw [natChars_eq]
    split
    · rename_i h10
      have hv := digitVal_ofNat m h10
      simp [foldDigits, hv]
    · rename_i h10
      rw [foldDigits_append, ih (m / 10) (Nat.div_lt_self (by omega) (by omega)),
        digitVal_ofNat (m % 10) (Nat.mod_lt _ (by omega))]
      omega

theorem parseNum_natChars (m : Nat) (rest : List Char) (hr : noDigitStart rest) :
    parseNum (natChars m ++ rest) = some (Int.ofNat m, rest) := by
  obtain ⟨d, t, heq, hd⟩ := natChars_head_digit m
  have hsplit : natChars m ++ rest = d :: (t ++ rest) := by rw [heq]; rfl
  have htw : (d :: (t ++ rest)).takeWhile Char.isDigit = d :: t := by
    rw [show d :: (t ++ rest) = (d :: t) ++ rest by simp,
      List.takeWhile_append_of_pos (by rw [← heq]; exact natChars_all_digit m),
      takeWhile_digit_nil hr, List.append_nil]
  have hdw : (d :: (t ++ rest)).dropWhile Char.isDigit = rest := by
    rw [show d :: (t ++ rest) = (d :: t) ++ rest by simp,
      List.dropWhile_append_of_pos (by rw [← heq]; exact natChars_all_digit m),
      dropWhile_digit_self hr]
  unfold parseNum
  rw [hsplit]
  split
  · rename_i r heq2
    injection heq2 with h1 h2
    rw [h1] at hd
    exact absurd hd (by decide)
  · simp only []
    rw [htw, hdw, if_neg (by simp)]
    rw [show d :: t = natChars m from heq.symm, foldDigits_natChars]

theorem parseNum_intChars (n : Int) (rest : List Char) (hr : noDigitStart rest) :
    parseNum (intChars n ++ rest) = some (n, rest) := by
  unfold intChars
  by_cases hneg : n < 0
  · rw [if_pos hneg, List.cons_append]
    unfold parseNum
    split
    · rename_i r heq2
      injection heq2 with h1 h2
      subst h2
      simp only []
      obtain ⟨d, t, heq, hd⟩ := natChars_head_digit n.natAbs
      have htw : (natChars n.natAbs ++ rest).takeWhile Char.isDigit
          = natChars n.natAbs := by
        rw [List.takeWhile_append_of_pos (natChars_all_digit n.natAbs),
          takeWhile_digit_nil hr, List.append_nil]
      have hdw : (natChars n.natAbs ++ rest).dropWhile Char.isDigit = rest := by
        rw [List.dropWhile_append_of_pos (natChars_all_digit n.natAbs),
          dropWhile_digit_self hr]
      rw [htw, hdw, if_neg (by rw [heq]; simp), foldDigits_natChars]
      rw [show -(Int.ofNat n.natAbs) = n from by rw [Int.ofNat_eq_coe, Int.natCast_natAbs, abs_of_neg hneg, neg_neg]]
    · rename_i hno
      exact (hno (natChars n.natAbs ++ rest) rfl).elim
  · rw [if_neg hneg, parseNum_natChars n.toNat rest hr,
      show Int.ofNat n.toNat = n from by rw [Int.ofNat_eq_coe]; omega]

/-! ### Structural helpers for the serializer round trip -/

theorem digit_not_jsonws {d : Char} (h : d.isDigit = true) : isJsonWs d = false := by
  cases hw : isJsonWs d
  · rfl
  · exfalso
    unfold isJsonWs at hw
    simp only [Bool.or_eq_true, decide_eq_true_eq] at hw
    rcases hw with ((h1 | h1) | h1) | h1 <;> (subst h1; exact absurd h (by decide))

theorem digit_ne {d : Char} (h : d.isDigit = true) {c : Char}
    (hc : c.isDigit = false) : ¬ d = c := by
  intro he
  rw [he] at h
  rw [h] at hc
  exact absurd hc (by decide)

theorem noDigitStart_cons {c : Char} (hc : c.isDigit = false) (rest : List Char) :
    noDigitStart (c :: rest) := by
  intro d h
  rw [← Option.some.inj h]
  exact hc

theorem jsize_pos : ∀ v : JVal, 1 ≤ jsize v := by
  intro v
  cases v <;> simp only [jsize] <;> omega

theorem isize_pos_cons (x : JVal) (r : List JVal) : 1 ≤ isize (x :: r) := by
  simp only [isize]
  omega

theorem msize_pos_cons (k : List Char) (w : JVal) (r : List (List Char × JVal)) :
    1 ≤ msize ((k, w) :: r) := by
  simp only [msize]
  omega

theorem dumps_head : ∀ v : JVal, ∃ c t, dumps v = c :: t ∧ isJsonWs c = false ∧
    ¬ c = ']' ∧ ¬ c = '}' := by
  intro v
  cases v with
  | null =>
    refine ⟨'n', _, rfl, ?_, ?_, ?_⟩ <;> decide
  | bool b =>
    cases b with
    | true => refine ⟨'t', _, rfl, ?_, ?_, ?_⟩ <;> decide
    | false => refine ⟨'f', _, rfl, ?_, ?_, ?_⟩ <;> decide
  | num n =>
    by_cases hneg : n < 0
    · refine ⟨'-', natChars n.natAbs, ?_, by decide, by decide, by decide⟩
      show intChars n = _
      unfold intChars
      rw [if_pos hneg]
    · obtain ⟨d, t, heq, hd⟩ := natChars_head_digit n.toNat
      refine ⟨d, t, ?_, digit_not_jsonws hd, digit_ne hd (by decide),
        digit_ne hd (by decide)⟩
      show intChars n = _
      unfold intChars
      rw [if_neg hneg, heq]
  | str s =>
    refine ⟨'"', _, rfl, ?_, ?_, ?_⟩ <;> decide
  | arr xs =>
    refine ⟨'[', _, rfl, ?_, ?_, ?_⟩ <;> decide
  | obj ps =>
    refine ⟨'{', _, rfl, ?_, ?_, ?_⟩ <;> decide

theorem dumpsItems_cons : ∀ x : JVal, ∀ xr : List JVal,
    ∃ u, dumpsItems (x :: xr) = dumps x ++ u := by
  intro x xr
  cases xr with
  | nil => exact ⟨[], (List.append_nil _).symm⟩
  | cons y yr => exact ⟨", ".toList ++ dumpsItems (y :: yr), rfl⟩

theorem dumpsMembers_cons : ∀ k : List Char, ∀ w : JVal,
    ∀ pr : List (List Char × JVal),
    ∃ u, dumpsMembers ((k, w) :: pr) = '"' :: u := by
  intro k w pr
  cases pr with
  | nil => exact ⟨k ++ ('"' :: ':' :: ' ' :: dumps w), rfl⟩
  | cons q qr =>
    exact ⟨(k ++ ('"' :: ':' :: ' ' :: dumps w)) ++
      (", ".toList ++ dumpsMembers (q :: qr)), rfl⟩

theorem parseMembers_close : ∀ fuel : Nat, ∀ acc, ∀ rest : List Char,
    parseMembers fuel ('}' :: rest) acc = none := by
  intro fuel acc rest
  cases fuel with
  | zero => rfl
  | succ fuel =>
    unfold parseMembers
    simp only []
    rw [if_neg (show ¬ ('}' :: rest).head? = some '"' from fun hq => by simp at hq)]

theorem skipJsonWs_cons_nonws {c : Char} (hc : isJsonWs c = false) (t : List Char) :
    skipJsonWs (c :: t) = c :: t :=
  dropWhile_eq_self_of_head hc

theorem wfItems_cons (x : JVal) (r : List JVal) :
    wfItems (x :: r) = (wfJ x && wfItems r) := by
  simp only [wfItems]

theorem wfMembers_cons_eq (k : List Char) (w : JVal) (r : List (List Char × JVal)) :
    wfMembers ((k, w) :: r) = ((k.all wfStrChar && wfJ w) && wfMembers r) := by
  simp only [wfMembers]

/-- The parser inverts the serializer: one value (with an all-whitespace prefix
and a non-digit-starting continuation), array items up to `]`, object members
up to `\x7d`, and the failure of object members followed by `,\x7d`. -/
theorem parse_dumps : ∀ fuel : Nat,
    (∀ v : JVal, ∀ sp rest : List Char, wfJ v = true → jsize v ≤ fuel →
      (∀ x ∈ sp, isJsonWs x = true) → noDigitStart rest →
      parseVal fuel (sp ++ (dumps v ++ rest)) = some (v, rest))
    ∧ (∀ xs : List JVal, ∀ sp : List Char, ∀ acc, ∀ rest : List Char,
      xs ≠ [] → wfItems xs = true → isize xs ≤ fuel →
      (∀ x ∈ sp, isJsonWs x = true) →
      parseItems fuel (sp ++ (dumpsItems xs ++ (']' :: rest))) acc
        = some (.arr (acc ++ xs), rest))
    ∧ (∀ ps, ∀ acc, ∀ rest : List Char, ps ≠ [] → wfMembers ps = true →
      msize ps ≤ fuel →
      parseMembers fuel (dumpsMembers ps ++ ('}' :: rest)) acc
        = some (.obj (acc ++ ps), rest))
    ∧ (∀ ps, ∀ acc, ∀ rest : List Char, ps ≠ [] → wfMembers ps = true →
      msize ps ≤ fuel →
      parseMembers fuel (dumpsMembers ps ++ (',' :: '}' :: rest)) acc = none) := by
  intro fuel
  induction fuel with
  | zero =>
    refine ⟨?_, ?_, ?_, ?_⟩
    · intro v _ _ _ hsz _ _
      exact absurd hsz (by have := jsize_pos v; omega)
    · intro xs _ _ _ hne _ hsz _
      cases xs with
      | nil => exact absurd rfl hne
      | cons x r => exact absurd hsz (by have := isize_pos_cons x r; omega)
    · intro ps _ _ hne _ hsz
      cases ps with
      | nil => exact absurd rfl hne
      | cons p r =>
        obtain ⟨k, w⟩ := p
        exact absurd hsz (by have := msize_pos_cons k w r; omega)
    · intro ps _ _ hne _ hsz
      cases ps with
      | nil => exact absurd rfl hne
      | cons p r =>
        obtain ⟨k, w⟩ := p
        exact absurd hsz (by have := msize_pos_cons k w r; omega)
  | succ fuel ih =>
    obtain ⟨ihV, ihI, ihM, ihD⟩ := ih
    refine ⟨?_, ?_, ?_, ?_⟩
    · intro v sp rest hwf hsz hsp hrest
      cases v with
      | null =>
        have hsk : skipJsonWs (sp ++ (dumps JVal.null ++ rest))
            = dumps JVal.null ++ rest :=
          skipJsonWs_ws_append hsp rfl (by decide)
        unfold parseVal
        simp only []
        rw [hsk]
        show (match stripPfx ("ull".toList) ("ull".toList ++ rest) with
          | some t => some (JVal.null, t)
          | none => none) = some (JVal.null, rest)
        rw [stripPfx_append]
      | bool b =>
        cases b with
        | true =>
          have hsk : skipJsonWs (sp ++ (dumps (JVal.bool true) ++ rest))
              = dumps (JVal.bool true) ++ rest :=
            skipJsonWs_ws_append hsp rfl (by decide)
          unfold parseVal
          simp only []
          rw [hsk]
          show (match stripPfx ("rue".toList) ("rue".toList ++ rest) with
            | some t => some (JVal.bool true, t)
            | none => none) = some (JVal.bool true, rest)
          rw [stripPfx_append]
        | false =>
          have hsk : skipJsonWs (sp ++ (dumps (JVal.bool false) ++ rest))
              = dumps (JVal.bool false) ++ rest :=
            skipJsonWs_ws_append hsp rfl (by decide)
          unfold parseVal
          simp only []
          rw [hsk]
          show (match stripPfx ("alse".toList) ("alse".toList ++ rest) with
            | some t => some (JVal.bool false, t)
            | none => none) = some (JVal.bool false, rest)
          rw [stripPfx_append]
      | num n =>
        by_cases hneg : n < 0
        · have hic' : intChars n = '-' :: natChars n.natAbs := by
            unfold intChars
            rw [if_pos hneg]
          have hic : dumps (JVal.num n) = '-' :: natChars n.natAbs := hic'
          rw [hic]
          have hsk : skipJsonWs (sp ++ (('-' :: natChars n.natAbs) ++ rest))
              = ('-' :: natChars n.natAbs) ++ rest :=
            skipJsonWs_ws_append hsp rfl (by decide)
          unfold parseVal
          simp only []
          rw [hsk]
          have hpn : parseNum (('-' :: natChars n.natAbs) ++ rest)
              = some (n, rest) := by
            have h0 := parseNum_intChars n rest hrest
            rwa [hic'] at h0
          show (match parseNum (('-' :: natChars n.natAbs) ++ rest) with
            | some (m, t) => some (JVal.num m, t)
            | none => none) = some (JVal.num n, rest)
          rw [hpn]
        · obtain ⟨d, t, heq, hd⟩ := natChars_head_digit n.toNat
          have hic' : intChars n = natChars n.toNat := by
            unfold intChars
            rw [if_neg hneg]
          have hic : dumps (JVal.num n) = d :: t := by
            show intChars n = _
            rw [hic', heq]
          rw [hic, List.cons_append]
          have hsk : skipJsonWs (sp ++ (d :: (t ++ rest))) = d :: (t ++ rest) :=
            skipJsonWs_ws_append hsp rfl (digit_not_jsonws hd)
          unfold parseVal
          simp only []
          rw [hsk]
          simp only []
          rw [if_neg (digit_ne hd (by decide)), if_neg (digit_ne hd (by decide)),
            if_neg (digit_ne hd (by decide)), if_neg (digit_ne hd (by decide)),
            if_neg (digit_ne hd (by decide)), if_neg (digit_ne hd (by decide))]
          have hpn : parseNum (d :: (t ++ rest)) = some (n, rest) := by
            have h0 := parseNum_intChars n rest hrest
            rw [hic', heq, List.cons_append] at h0
            exact h0
          rw [hpn]
      | str s =>
        have hall : ∀ x ∈ s, wfStrChar x = true := by
          have h0 : s.all wfStrChar = true := hwf
          exact fun x hx => List.all_eq_true.mp h0 x hx
        have hsk : skipJsonWs (sp ++ (dumps (JVal.str s) ++ rest))
            = dumps (JVal.str s) ++ rest :=
          skipJsonWs_ws_append hsp rfl (by decide)
        unfold parseVal
        simp only []
        rw [hsk]
        show (match parseStringBody ((s ++ ['"']) ++ rest) with
          | some (cs, t) => some (JVal.str cs, t)
          | none => none) = some (JVal.str s, rest)
        rw [List.append_assoc, List.singleton_append, parseStringBody_wf hall rest]
      | arr xs =>
        cases xs with
        | nil =>
          have hsk : skipJsonWs (sp ++ (dumps (JVal.arr []) ++ rest))
              = dumps (JVal.arr []) ++ rest :=
            skipJsonWs_ws_append hsp rfl (by decide)
          unfold parseVal
          simp only []
          rw [hsk]
          rfl
        | cons x xr =>
          have hwfi : wfItems (x :: xr) = true := hwf
          have hszi : isize (x :: xr) ≤ fuel := by
            have h0 : 1 + isize (x :: xr) ≤ fuel + 1 := hsz
            omega
          have hsk : skipJsonWs (sp ++ (dumps (JVal.arr (x :: xr)) ++ rest))
              = dumps (JVal.arr (x :: xr)) ++ rest :=
            skipJsonWs_ws_append hsp rfl (by decide)
          unfold parseVal
          simp only []
          rw [hsk]
          show (if (skipJsonWs ((dumpsItems (x :: xr) ++ [']']) ++ rest)).head?
                = some ']'
              then some (JVal.arr [],
                (skipJsonWs ((dumpsItems (x :: xr) ++ [']']) ++ rest)).tail)
              else parseItems fuel
                (skipJsonWs ((dumpsItems (x :: xr) ++ [']']) ++ rest)) [])
            = some (JVal.arr (x :: xr), rest)
          obtain ⟨c0, t0, hd0, hnws0, hne1, hne2⟩ := dumps_head x
          obtain ⟨u, hu⟩ := dumpsItems_cons x xr
          have hbig : (dumpsItems (x :: xr) ++ [']']) ++ rest
              = c0 :: ((t0 ++ u) ++ (']' :: rest)) := by
            rw [hu, hd0]
            simp
          have hsk2 : skipJsonWs ((dumpsItems (x :: xr) ++ [']']) ++ rest)
              = dumpsItems (x :: xr) ++ (']' :: rest) := by
            rw [hbig, skipJsonWs_cons_nonws hnws0, hu, hd0]
            simp
          rw [hsk2]
          have hcnd : ¬ (dumpsItems (x :: xr) ++ (']' :: rest)).head? = some ']' := by
            rw [hu, hd0]
            simpa using hne1
          rw [if_neg hcnd]
          exact ihI (x :: xr) [] [] rest (List.cons_ne_nil x xr) hwfi hszi
            (by intro z hz; simp at hz)
      | obj ps =>
        cases ps with
        | nil =>
          have hsk : skipJsonWs (sp ++ (dumps (JVal.obj []) ++ rest))
              = dumps (JVal.obj []) ++ rest :=
            skipJsonWs_ws_append hsp rfl (by decide)
          unfold parseVal
          simp only []
          rw [hsk]
          rfl
        | cons p pr =>
          obtain ⟨k, w⟩ := p
          have hwfm : wfMembers ((k, w) :: pr) = true := hwf
          have hszm : msize ((k, w) :: pr) ≤ fuel := by
            have h0 : 1 + msize ((k, w) :: pr) ≤ fuel + 1 := hsz
            omega
          have hsk : skipJsonWs (sp ++ (dumps (JVal.obj ((k, w) :: pr)) ++ rest))
              = dumps (JVal.obj ((k, w) :: pr)) ++ rest :=
            skipJsonWs_ws_append hsp rfl (by decide)
          unfold parseVal
          simp only []
          rw [hsk]
          show (if (skipJsonWs ((dumpsMembers ((k, w) :: pr) ++ ['}']) ++ rest)).head?
                = some '}'
              then some (JVal.obj [],
                (skipJsonWs ((dumpsMembers ((k, w) :: pr) ++ ['}']) ++ rest)).tail)
              else parseMembers fuel
                (skipJsonWs ((dumpsMembers ((k, w) :: pr) ++ ['}']) ++ rest)) [])
            = some (JVal.obj ((k, w) :: pr), rest)
          obtain ⟨u, hu⟩ := dumpsMembers_cons k w pr
          have hsk2 : skipJsonWs ((dumpsMembers ((k, w) :: pr) ++ ['}']) ++ rest)
              = dumpsMembers ((k, w) :: pr) ++ ('}' :: rest) := by
            rw [hu]
            have h1 : (('"' :: u) ++ ['}']) ++ rest = '"' :: ((u ++ ['}']) ++ rest) := by
              simp
            rw [h1, skipJsonWs_cons_nonws (by decide)]
            simp
          rw [hsk2]
          have hcnd : ¬ (dumpsMembers ((k, w) :: pr) ++ ('}' :: rest)).head?
              = some '}' := by
            rw [hu]
            simp
          rw [if_neg hcnd]
          exact ihM ((k, w) :: pr) [] rest (List.cons_ne_nil _ _) hwfm hszm
    · intro xs sp acc rest hne hwf hsz hsp
      cases xs with
      | nil => exact absurd rfl hne
      | cons x xr =>
        have h0 : (wfJ x && wfItems xr) = true := by
          rw [← wfItems_cons]
          exact hwf
        rw [Bool.and_eq_true] at h0
        obtain ⟨hwfx, hwfr⟩ := h0
        cases xr with
        | nil =>
          have hszx : jsize x ≤ fuel := by
            have h1 : 1 + jsize x + isize ([] : List JVal) ≤ fuel + 1 := hsz
            have h2 : isize ([] : List JVal) = 0 := rfl
            omega
          unfold parseItems
          simp only []
          have hpv : parseVal fuel (sp ++ (dumpsItems [x] ++ (']' :: rest)))
              = some (x, ']' :: rest) :=
            ihV x sp (']' :: rest) hwfx hszx hsp (noDigitStart_cons (by decide) rest)
          rw [hpv]
          simp only []
          rw [if_neg (show ¬ (skipJsonWs (']' :: rest)).head? = some ','
              from by rw [skipJsonWs_cons_nonws (by decide)]; simp),
            if_pos (show (skipJsonWs (']' :: rest)).head? = some ']'
              from by rw [skipJsonWs_cons_nonws (by decide)]; rfl),
            show (skipJsonWs (']' :: rest)).tail = rest
              from by rw [skipJsonWs_cons_nonws (by decide)]; rfl]
        | cons y yr =>
          have hszx : jsize x ≤ fuel ∧ isize (y :: yr) ≤ fuel := by
            have h1 : 1 + jsize x + isize (y :: yr) ≤ fuel + 1 := hsz
            have h2 := isize_pos_cons y yr
            omega
          have hre : sp ++ (dumpsItems (x :: y :: yr) ++ (']' :: rest))
              = sp ++ (dumps x ++
                (',' :: ' ' :: (dumpsItems (y :: yr) ++ (']' :: rest)))) := by
            rw [show dumpsItems (x :: y :: yr)
              = dumps x ++ (',' :: ' ' :: dumpsItems (y :: yr)) from rfl]
            simp [List.append_assoc]
          rw [hre]
          unfold parseItems
          simp only []
          have hpv := ihV x sp
            (',' :: ' ' :: (dumpsItems (y :: yr) ++ (']' :: rest)))
            hwfx hszx.1 hsp (noDigitStart_cons (by decide) _)
          rw [hpv]
          simp only []
          rw [if_pos (show (skipJsonWs (',' :: ' ' ::
              (dumpsItems (y :: yr) ++ (']' :: rest)))).head? = some ','
            from by rw [skipJsonWs_cons_nonws (by decide)]; rfl)]
          have hch : (skipJsonWs (',' :: ' ' ::
              (dumpsItems (y :: yr) ++ (']' :: rest)))).tail
              = ' ' :: (dumpsItems (y :: yr) ++ (']' :: rest)) := by
            rw [skipJsonWs_cons_nonws (by decide)]
            rfl
          rw [hch]
          have hit : parseItems fuel
              (' ' :: (dumpsItems (y :: yr) ++ (']' :: rest))) (acc ++ [x])
              = some (.arr ((acc ++ [x]) ++ (y :: yr)), rest) :=
            ihI (y :: yr) [' '] (acc ++ [x]) rest (List.cons_ne_nil _ _)
              hwfr hszx.2 (by intro z hz; simp at hz; subst hz; rfl)
          rw [hit, show (acc ++ [x]) ++ (y :: yr) = acc ++ (x :: y :: yr) by simp]
    · intro ps acc rest hne hwf hsz
      cases ps with
      | nil => exact absurd rfl hne
      | cons p pr =>
        obtain ⟨k, w⟩ := p
        have h0 : ((k.all wfStrChar && wfJ w) && wfMembers pr) = true := by
          rw [← wfMembers_cons_eq]
          exact hwf
        rw [Bool.and_eq_true, Bool.and_eq_true] at h0
        obtain ⟨⟨hk, hw⟩, hpr⟩ := h0
        have hallk : ∀ x ∈ k, wfStrChar x = true :=
          fun x hx => List.all_eq_true.mp hk x hx
        cases pr with
        | nil =>
          have hszw : jsize w ≤ fuel := by
            have h1 : 1 + jsize w + msize ([] : List (List Char × JVal))
                ≤ fuel + 1 := hsz
            have h2 : msize ([] : List (List Char × JVal)) = 0 := rfl
            omega
          unfold parseMembers
          simp only []
          rw [show dumpsMembers [(k, w)] ++ ('}' :: rest)
              = '"' :: ((k ++ ('"' :: ':' :: ' ' :: dumps w)) ++ ('}' :: rest))
              from rfl]
          have hq : ('"' :: ((k ++ ('"' :: ':' :: ' ' :: dumps w)) ++ ('}' :: rest))).head? = some '"' := rfl
          rw [if_pos hq]
          have hps : parseStringBody (('"' :: ((k ++ ('"' :: ':' :: ' ' :: dumps w))
                ++ ('}' :: rest))).tail)
              = some (k, ':' :: ' ' :: (dumps w ++ ('}' :: rest))) := by
            show parseStringBody ((k ++ ('"' :: ':' :: ' ' :: dumps w))
              ++ ('}' :: rest)) = _
            rw [List.append_assoc]
            exact parseStringBody_wf hallk _
          rw [hps]
          simp only []
          rw [if_pos (show (skipJsonWs (':' :: ' ' ::
              (dumps w ++ ('}' :: rest)))).head? = some ':'
            from by rw [skipJsonWs_cons_nonws (by decide)]; rfl)]
          have hpv : parseVal fuel ((skipJsonWs (':' :: ' ' ::
              (dumps w ++ ('}' :: rest)))).tail) = some (w, '}' :: rest) := by
            have h1 : (skipJsonWs (':' :: ' ' :: (dumps w ++ ('}' :: rest)))).tail
                = ' ' :: (dumps w ++ ('}' :: rest)) := by
              rw [skipJsonWs_cons_nonws (by decide)]
              rfl
            rw [h1]
            exact ihV w [' '] ('}' :: rest) hw hszw
              (by intro z hz; simp at hz; subst hz; rfl)
              (noDigitStart_cons (by decide) rest)
          rw [hpv]
          simp only []
          rw [if_neg (show ¬ (skipJsonWs ('}' :: rest)).head? = some ','
              from by rw [skipJsonWs_cons_nonws (by decide)]; simp),
            if_pos (show (skipJsonWs ('}' :: rest)).head? = some '}'
              from by rw [skipJsonWs_cons_nonws (by decide)]; rfl),
            show (skipJsonWs ('}' :: rest)).tail = rest
              from by rw [skipJsonWs_cons_nonws (by decide)]; rfl]
        | cons q qr =>
          obtain ⟨k2, w2⟩ := q
          have hszw : jsize w ≤ fuel ∧ msize ((k2, w2) :: qr) ≤ fuel := by
            have h1 : 1 + jsize w + msize ((k2, w2) :: qr) ≤ fuel + 1 := hsz
            have h2 := msize_pos_cons k2 w2 qr
            omega
          unfold parseMembers
          simp only []
          have hbig : dumpsMembers ((k, w) :: (k2, w2) :: qr) ++ ('}' :: rest)
              = '"' :: ((k ++ ('"' :: ':' :: ' ' :: dumps w)) ++
                (',' :: ' ' :: (dumpsMembers ((k2, w2) :: qr) ++ ('}' :: rest)))) := by
            rw [show dumpsMembers ((k, w) :: (k2, w2) :: qr)
              = ('"' :: (k ++ ('"' :: ':' :: ' ' :: dumps w))) ++
                (',' :: ' ' :: dumpsMembers ((k2, w2) :: qr)) from rfl]
            simp [List.append_assoc]
          rw [hbig]
          have hq : ('"' :: ((k ++ ('"' :: ':' :: ' ' :: dumps w)) ++ (',' :: ' ' :: (dumpsMembers ((k2, w2) :: qr) ++ ('}' :: rest))))).head? = some '"' := rfl
          rw [if_pos hq]
          have hps : parseStringBody (('"' :: ((k ++ ('"' :: ':' :: ' ' :: dumps w))
                ++ (',' :: ' ' :: (dumpsMembers ((k2, w2) :: qr)
                  ++ ('}' :: rest))))).tail)
              = some (k, ':' :: ' ' :: (dumps w ++ (',' :: ' ' ::
                (dumpsMembers ((k2, w2) :: qr) ++ ('}' :: rest))))) := by
            show parseStringBody ((k ++ ('"' :: ':' :: ' ' :: dumps w))
              ++ (',' :: ' ' :: (dumpsMembers ((k2, w2) :: qr) ++ ('}' :: rest)))) = _
            rw [List.append_assoc]
            exact parseStringBody_wf hallk _
          rw [hps]
          simp only []
          rw [if_pos (show (skipJsonWs (':' :: ' ' :: (dumps w ++ (',' :: ' ' ::
              (dumpsMembers ((k2, w2) :: qr) ++ ('}' :: rest)))))).head? = some ':'
            from by rw [skipJsonWs_cons_nonws (by decide)]; rfl)]
          have hpv : parseVal fuel ((skipJsonWs (':' :: ' ' :: (dumps w ++
              (',' :: ' ' :: (dumpsMembers ((k2, w2) :: qr)
                ++ ('}' :: rest)))))).tail)
              = some (w, ',' :: ' ' :: (dumpsMembers ((k2, w2) :: qr)
                ++ ('}' :: rest))) := by
            have h1 : (skipJsonWs (':' :: ' ' :: (dumps w ++ (',' :: ' ' ::
                (dumpsMembers ((k2, w2) :: qr) ++ ('}' :: rest)))))).tail
                = ' ' :: (dumps w ++ (',' :: ' ' ::
                  (dumpsMembers ((k2, w2) :: qr) ++ ('}' :: rest)))) := by
              rw [skipJsonWs_cons_nonws (by decide)]
              rfl
            rw [h1]
            exact ihV w [' '] _ hw hszw.1
              (by intro z hz; simp at hz; subst hz; rfl)
              (noDigitStart_cons (by decide) _)
          rw [hpv]
          simp only []
          rw [if_pos (show (skipJsonWs (',' :: ' ' ::
              (dumpsMembers ((k2, w2) :: qr) ++ ('}' :: rest)))).head? = some ','
            from by rw [skipJsonWs_cons_nonws (by decide)]; rfl)]
          have hch : skipJsonWs ((skipJsonWs (',' :: ' ' ::
              (dumpsMembers ((k2, w2) :: qr) ++ ('}' :: rest)))).tail)
              = dumpsMembers ((k2, w2) :: qr) ++ ('}' :: rest) := by
            rw [skipJsonWs_cons_nonws (by decide)]
            obtain ⟨u2, hu2⟩ := dumpsMembers_cons k2 w2 qr
            show skipJsonWs (' ' :: (dumpsMembers ((k2, w2) :: qr)
              ++ ('}' :: rest))) = _
            rw [hu2]
            have hws : ∀ z ∈ ([' '] : List Char), isJsonWs z = true := by
              intro z hz
              simp at hz
              subst hz
              rfl
            exact skipJsonWs_ws_append hws rfl (by decide)
          rw [hch]
          have hfin := ihM ((k2, w2) :: qr) (acc ++ [(k, w)]) rest
            (List.cons_ne_nil _ _) hpr hszw.2
          rw [hfin, show (acc ++ [(k, w)]) ++ ((k2, w2) :: qr)
            = acc ++ ((k, w) :: (k2, w2) :: qr) by simp]
    · intro ps acc rest hne hwf hsz
      cases ps with
      | nil => exact absurd rfl hne
      | cons p pr =>
        obtain ⟨k, w⟩ := p
        have h0 : ((k.all wfStrChar && wfJ w) && wfMembers pr) = true := by
          rw [← wfMembers_cons_eq]
          exact hwf
        rw [Bool.and_eq_true, Bool.and_eq_true] at h0
        obtain ⟨⟨hk, hw⟩, hpr⟩ := h0
        have hallk : ∀ x ∈ k, wfStrChar x = true :=
          fun x hx => List.all_eq_true.mp hk x hx
        cases pr with
        | nil =>
          have hszw : jsize w ≤ fuel := by
            have h1 : 1 + jsize w + msize ([] : List (List Char × JVal))
                ≤ fuel + 1 := hsz
            have h2 : msize ([] : List (List Char × JVal)) = 0 := rfl
            omega
          unfold parseMembers
          simp only []
          rw [show dumpsMembers [(k, w)] ++ (',' :: '}' :: rest)
              = '"' :: ((k ++ ('"' :: ':' :: ' ' :: dumps w))
                ++ (',' :: '}' :: rest)) from rfl]
          have hq : ('"' :: ((k ++ ('"' :: ':' :: ' ' :: dumps w)) ++ (',' :: '}' :: rest))).head? = some '"' := rfl
          rw [if_pos hq]
          have hps : parseStringBody (('"' :: ((k ++ ('"' :: ':' :: ' ' :: dumps w))
                ++ (',' :: '}' :: rest))).tail)
              = some (k, ':' :: ' ' :: (dumps w ++ (',' :: '}' :: rest))) := by
            show parseStringBody ((k ++ ('"' :: ':' :: ' ' :: dumps w))
              ++ (',' :: '}' :: rest)) = _
            rw [List.append_assoc]
            exact parseStringBody_wf hallk _
          rw [hps]
          simp only []
          rw [if_pos (show (skipJsonWs (':' :: ' ' ::
              (dumps w ++ (',' :: '}' :: rest)))).head? = some ':'
            from by rw [skipJsonWs_cons_nonws (by decide)]; rfl)]
          have hpv : parseVal fuel ((skipJsonWs (':' :: ' ' ::
              (dumps w ++ (',' :: '}' :: rest)))).tail)
              = some (w, ',' :: '}' :: rest) := by
            have h1 : (skipJsonWs (':' :: ' ' ::
                (dumps w ++ (',' :: '}' :: rest)))).tail
                = ' ' :: (dumps w ++ (',' :: '}' :: rest)) := by
              rw [skipJsonWs_cons_nonws (by decide)]
              rfl
            rw [h1]
            exact ihV w [' '] (',' :: '}' :: rest) hw hszw
              (by intro z hz; simp at hz; subst hz; rfl)
              (noDigitStart_cons (by decide) _)
          rw [hpv]
          simp only []
          rw [if_pos (show (skipJsonWs (',' :: '}' :: rest)).head? = some ','
            from by rw [skipJsonWs_cons_nonws (by decide)]; rfl)]
          have hch : skipJsonWs ((skipJsonWs (',' :: '}' :: rest)).tail)
              = '}' :: rest := by
            rw [skipJsonWs_cons_nonws (by decide)]
            show skipJsonWs ('}' :: rest) = _
            exact skipJsonWs_cons_nonws (by decide) rest
          rw [hch, parseMembers_close]
        | cons q qr =>
          obtain ⟨k2, w2⟩ := q
          have hszw : jsize w ≤ fuel ∧ msize ((k2, w2) :: qr) ≤ fuel := by
            have h1 : 1 + jsize w + msize ((k2, w2) :: qr) ≤ fuel + 1 := hsz
            have h2 := msize_pos_cons k2 w2 qr
            omega
          unfold parseMembers
          simp only []
          have hbig : dumpsMembers ((k, w) :: (k2, w2) :: qr) ++ (',' :: '}' :: rest)
              = '"' :: ((k ++ ('"' :: ':' :: ' ' :: dumps w)) ++
                (',' :: ' ' :: (dumpsMembers ((k2, w2) :: qr)
                  ++ (',' :: '}' :: rest)))) := by
            rw [show dumpsMembers ((k, w) :: (k2, w2) :: qr)
              = ('"' :: (k ++ ('"' :: ':' :: ' ' :: dumps w))) ++
                (',' :: ' ' :: dumpsMembers ((k2, w2) :: qr)) from rfl]
            simp [List.append_assoc]
          rw [hbig]
          have hq : ('"' :: ((k ++ ('"' :: ':' :: ' ' :: dumps w)) ++ (',' :: ' ' :: (dumpsMembers ((k2, w2) :: qr) ++ (',' :: '}' :: rest))))).head? = some '"' := rfl
          rw [if_pos hq]
          have hps : parseStringBody (('"' :: ((k ++ ('"' :: ':' :: ' ' :: dumps w))
                ++ (',' :: ' ' :: (dumpsMembers ((k2, w2) :: qr)
                  ++ (',' :: '}' :: rest))))).tail)
              = some (k, ':' :: ' ' :: (dumps w ++ (',' :: ' ' ::
                (dumpsMembers ((k2, w2) :: qr) ++ (',' :: '}' :: rest))))) := by
            show parseStringBody ((k ++ ('"' :: ':' :: ' ' :: dumps w))
              ++ (',' :: ' ' :: (dumpsMembers ((k2, w2) :: qr)
                ++ (',' :: '}' :: rest)))) = _
            rw [List.append_assoc]
            exact parseStringBody_wf hallk _
          rw [hps]
          simp only []
          rw [if_pos (show (skipJsonWs (':' :: ' ' :: (dumps w ++ (',' :: ' ' ::
              (dumpsMembers ((k2, w2) :: qr)
                ++ (',' :: '}' :: rest)))))).head? = some ':'
            from by rw [skipJsonWs_cons_nonws (by decide)]; rfl)]
          have hpv : parseVal fuel ((skipJsonWs (':' :: ' ' :: (dumps w ++
              (',' :: ' ' :: (dumpsMembers ((k2, w2) :: qr)
                ++ (',' :: '}' :: rest)))))).tail)
              = some (w, ',' :: ' ' :: (dumpsMembers ((k2, w2) :: qr)
                ++ (',' :: '}' :: rest))) := by
            have h1 : (skipJsonWs (':' :: ' ' :: (dumps w ++ (',' :: ' ' ::
                (dumpsMembers ((k2, w2) :: qr) ++ (',' :: '}' :: rest)))))).tail
                = ' ' :: (dumps w ++ (',' :: ' ' ::
                  (dumpsMembers ((k2, w2) :: qr) ++ (',' :: '}' :: rest)))) := by
              rw [skipJsonWs_cons_nonws (by decide)]
              rfl
            rw [h1]
            exact ihV w [' '] _ hw hszw.1
              (by intro z hz; simp at hz; subst hz; rfl)
              (noDigitStart_cons (by decide) _)
          rw [hpv]
          simp only []
          rw [if_pos (show (skipJsonWs (',' :: ' ' ::
              (dumpsMembers ((k2, w2) :: qr)
                ++ (',' :: '}' :: rest)))).head? = some ','
            from by rw [skipJsonWs_cons_nonws (by decide)]; rfl)]
          have hch : skipJsonWs ((skipJsonWs (',' :: ' ' ::
              (dumpsMembers ((k2, w2) :: qr) ++ (',' :: '}' :: rest)))).tail)
              = dumpsMembers ((k2, w2) :: qr) ++ (',' :: '}' :: rest) := by
            rw [skipJsonWs_cons_nonws (by decide)]
            obtain ⟨u2, hu2⟩ := dumpsMembers_cons k2 w2 qr
            show skipJsonWs (' ' :: (dumpsMembers ((k2, w2) :: qr)
              ++ (',' :: '}' :: rest))) = _
            rw [hu2]
            have hws : ∀ z ∈ ([' '] : List Char), isJsonWs z = true := by
              intro z hz
              simp at hz
              subst hz
              rfl
            exact skipJsonWs_ws_append hws rfl (by decide)
          rw [hch]
          exact ihD ((k2, w2) :: qr) (acc ++ [(k, w)]) rest
            (List.cons_ne_nil _ _) hpr hszw.2

theorem dumps_size : ∀ fuel : Nat,
    (∀ v : JVal, jsize v ≤ fuel → jsize v ≤ (dumps v).length)
    ∧ (∀ xs : List JVal, isize xs ≤ fuel →
      isize xs ≤ (dumpsItems xs).length + 1)
    ∧ (∀ ps : List (List Char × JVal), msize ps ≤ fuel →
      msize ps ≤ (dumpsMembers ps).length + 1) := by
  intro fuel
  induction fuel with
  | zero =>
    refine ⟨?_, ?_, ?_⟩
    · intro v hsz
      exact absurd hsz (by have := jsize_pos v; omega)
    · intro xs hsz
      cases xs with
      | nil =>
        have h0 : isize ([] : List JVal) = 0 := rfl
        omega
      | cons x r => exact absurd hsz (by have := isize_pos_cons x r; omega)
    · intro ps hsz
      cases ps with
      | nil =>
        have h0 : msize ([] : List (List Char × JVal)) = 0 := rfl
        omega
      | cons p r =>
        obtain ⟨k, w⟩ := p
        exact absurd hsz (by have := msize_pos_cons k w r; omega)
  | succ fuel ih =>
    obtain ⟨ihV, ihI, ihM⟩ := ih
    refine ⟨?_, ?_, ?_⟩
    · intro v hsz
      cases v with
      | null => decide
      | bool b => cases b <;> decide
      | num n =>
        have h1 : jsize (JVal.num n) = 1 := rfl
        have h2 : 1 ≤ (dumps (JVal.num n)).length := by
          show 1 ≤ (intChars n).length
          unfold intChars
          by_cases hneg : n < 0
          · rw [if_pos hneg]
            simp
          · rw [if_neg hneg]
            obtain ⟨d, t, heq, _⟩ := natChars_head_digit n.toNat
            rw [heq]
            simp
        omega
      | str s =>
        have h1 : jsize (JVal.str s) = 1 := rfl
        have h2 : (dumps (JVal.str s)).length = s.length + 2 := by
          show ('"' :: (s ++ ['"'])).length = _
          simp
        omega
      | arr xs =>
        have h0 : 1 + isize xs ≤ fuel + 1 := hsz
        have hI := ihI xs (by omega)
        have h1 : jsize (JVal.arr xs) = 1 + isize xs := rfl
        have h2 : (dumps (JVal.arr xs)).length = (dumpsItems xs).length + 2 := by
          show ('[' :: (dumpsItems xs ++ [']'])).length = _
          simp
        omega
      | obj ps =>
        have h0 : 1 + msize ps ≤ fuel + 1 := hsz
        have hM := ihM ps (by omega)
        have h1 : jsize (JVal.obj ps) = 1 + msize ps := rfl
        have h2 : (dumps (JVal.obj ps)).length = (dumpsMembers ps).length + 2 := by
          show ('{' :: (dumpsMembers ps ++ ['}'])).length = _
          simp
        omega
    · intro xs hsz
      cases xs with
      | nil =>
        have h0 : isize ([] : List JVal) = 0 := rfl
        omega
      | cons x xr =>
        cases xr with
        | nil =>
          have h1 : isize [x] = 1 + jsize x + 0 := rfl
          have h2 : (dumpsItems [x]).length = (dumps x).length := rfl
          have h3 : 1 + jsize x + 0 ≤ fuel + 1 := hsz
          have hV := ihV x (by omega)
          omega
        | cons y yr =>
          have h1 : isize (x :: y :: yr) = 1 + jsize x + isize (y :: yr) := rfl
          have h3 : 1 + jsize x + isize (y :: yr) ≤ fuel + 1 := hsz
          have hV := ihV x (by omega)
          have hI := ihI (y :: yr) (by omega)
          have h2 : (dumpsItems (x :: y :: yr)).length
              = (dumps x).length + (2 + (dumpsItems (y :: yr)).length) := by
            show (dumps x ++ (", ".toList ++ dumpsItems (y :: yr))).length = _
            simp only [List.length_append]
            have : (", ".toList).length = 2 := rfl
            omega
          omega
    · intro ps hsz
      cases ps with
      | nil =>
        have h0 : msize ([] : List (List Char × JVal)) = 0 := rfl
        omega
      | cons p pr =>
        obtain ⟨k, w⟩ := p
        cases pr with
        | nil =>
          have h1 : msize [(k, w)] = 1 + jsize w + 0 := rfl
          have h3 : 1 + jsize w + 0 ≤ fuel + 1 := hsz
          have hV := ihV w (by omega)
          have h2 : (dumpsMembers [(k, w)]).length
              = k.length + (dumps w).length + 4 := by
            show ('"' :: (k ++ ('"' :: ':' :: ' ' :: dumps w))).length = _
            simp only [List.length_cons, List.length_append]
            omega
          rw [h1, h2]
          omega
        | cons q qr =>
          obtain ⟨k2, w2⟩ := q
          have h1 : msize ((k, w) :: (k2, w2) :: qr)
              = 1 + jsize w + msize ((k2, w2) :: qr) := rfl
          have h3 : 1 + jsize w + msize ((k2, w2) :: qr) ≤ fuel + 1 := hsz
          have hV := ihV w (by omega)
          have hM := ihM ((k2, w2) :: qr) (by omega)
          have h2 : (dumpsMembers ((k, w) :: (k2, w2) :: qr)).length
              = k.length + (dumps w).length + 4
                + (2 + (dumpsMembers ((k2, w2) :: qr)).length) := by
            show (('"' :: (k ++ ('"' :: ':' :: ' ' :: dumps w)))
              ++ (", ".toList ++ dumpsMembers ((k2, w2) :: qr))).length = _
            simp only [List.length_cons, List.length_append]
            have : (", ".toList).length = 2 := rfl
            omega
          rw [h1, h2]
          omega

theorem loads_dumps (v : JVal) (hwf : wfJ v = true) : loads (dumps v) = some v := by
  unfold loads
  have hsz : jsize v ≤ (dumps v).length + 1 := by
    have := (dumps_size (jsize v)).1 v le_rfl
    omega
  have hpv : parseVal ((dumps v).length + 1) (dumps v) = some (v, []) := by
    have h := (parse_dumps ((dumps v).length + 1)).1 v [] [] hwf hsz
      (by intro z hz; simp at hz) (by intro d hd; simp at hd)
    simpa using h
  rw [hpv]
  rfl

theorem loads_comma_none (ps : List (List Char × JVal)) (hne : ps ≠ [])
    (hwf : wfMembers ps = true) :
    loads ('{' :: (dumpsMembers ps ++ [',', '}'])) = none := by
  obtain ⟨p, pr, hps⟩ : ∃ p pr, ps = p :: pr := by
    cases ps with
    | nil => exact absurd rfl hne
    | cons p pr => exact ⟨p, pr, rfl⟩
  obtain ⟨k, w⟩ := p
  obtain ⟨u2, hu2⟩ := dumpsMembers_cons k w pr
  have hmsz : msize ps ≤ ('{' :: (dumpsMembers ps ++ [',', '}'])).length := by
    have hds := (dumps_size (msize ps)).2.2 ps le_rfl
    have hl : ('{' :: (dumpsMembers ps ++ [',', '}'])).length
        = (dumpsMembers ps).length + 3 := by simp
    omega
  unfold loads
  have hpv : parseVal (('{' :: (dumpsMembers ps ++ [',', '}'])).length + 1)
      ('{' :: (dumpsMembers ps ++ [',', '}'])) = none := by
    unfold parseVal
    simp only []
    rw [skipJsonWs_cons_nonws (by decide)]
    show (if (skipJsonWs (dumpsMembers ps ++ [',', '}'])).head? = some '}'
        then some (JVal.obj [], (skipJsonWs (dumpsMembers ps ++ [',', '}'])).tail)
        else parseMembers (('{' :: (dumpsMembers ps ++ [',', '}'])).length)
          (skipJsonWs (dumpsMembers ps ++ [',', '}'])) []) = none
    have hsk2 : skipJsonWs (dumpsMembers ps ++ [',', '}'])
        = dumpsMembers ps ++ [',', '}'] := by
      rw [hps, hu2]
      exact skipJsonWs_cons_nonws (by decide) _
    rw [hsk2]
    rw [if_neg (show ¬ (dumpsMembers ps ++ [',', '}']).head? = some '}' from by
      rw [hps, hu2]
      simp)]
    exact (parse_dumps _).2.2.2 ps [] [] hne hwf (by
      have h := hmsz
      simp at h ⊢
      omega)
  rw [hpv]

/-! ### The trailing-comma repair on a serialization with one comma inserted -/

theorem rtcF_succ_cons (fuel : Nat) {c : Char} (rest : List Char)
    (hc : ¬ c = ',') : rtcF (fuel + 1) (c :: rest) = c :: rtcF fuel rest := by
  simp only [rtcF]
  rw [if_neg hc]

theorem rtcF_succ_comma_bracket (fuel : Nat) {rest : List Char} {b : Char}
    {r3 : List Char} (hdw : rest.dropWhile isReWs = b :: r3)
    (hb : b = '}' ∨ b = ']') :
    rtcF (fuel + 1) (',' :: rest) = b :: rtcF fuel r3 := by
  simp only [rtcF]
  rw [if_pos trivial, hdw]
  show (if b = '}' ∨ b = ']' then b :: rtcF fuel r3 else ',' :: rtcF fuel rest)
    = b :: rtcF fuel r3
  rw [if_pos hb]

theorem rtcF_succ_comma_nb (fuel : Nat) {rest : List Char} {b : Char}
    {r3 : List Char} (hdw : rest.dropWhile isReWs = b :: r3)
    (hb : ¬ (b = '}' ∨ b = ']')) :
    rtcF (fuel + 1) (',' :: rest) = ',' :: rtcF fuel rest := by
  simp only [rtcF]
  rw [if_pos trivial, hdw]
  show (if b = '}' ∨ b = ']' then b :: rtcF fuel r3 else ',' :: rtcF fuel rest)
    = ',' :: rtcF fuel rest
  rw [if_neg hb]

theorem rtcF_succ_comma_ws (fuel : Nat) {rest : List Char}
    (hdw : rest.dropWhile isReWs = []) :
    rtcF (fuel + 1) (',' :: rest) = ',' :: rtcF fuel rest := by
  simp only [rtcF]
  rw [if_pos trivial, hdw]

theorem rtcF_acb : ∀ fuel : Nat, ∀ xs : List Char, xs.length + 2 ≤ fuel →
    rtcF fuel (xs ++ [',', '}']) = rtcF fuel xs ++ ['}'] := by
  intro fuel
  induction fuel with
  | zero => intro xs h; omega
  | succ fuel ih =>
    intro xs h
    cases xs with
    | nil =>
      rw [show ([] : List Char) ++ [',', '}'] = ',' :: ['}'] from rfl]
      rw [rtcF_succ_comma_bracket fuel
        (show (['}'] : List Char).dropWhile isReWs = '}' :: [] from rfl)
        (Or.inl rfl)]
      rw [rtcF_nil fuel, show rtcF (fuel + 1) ([] : List Char) = [] from rfl]
      rfl
    | cons a xs2 =>
      have hlen : xs2.length + 3 ≤ fuel + 1 := by
        have h2 : (a :: xs2).length = xs2.length + 1 := by simp
        omega
      rw [List.cons_append]
      by_cases ha : a = ','
      · subst ha
        cases hdw : xs2.dropWhile isReWs with
        | nil =>
          have hdw2 : (xs2 ++ [',', '}']).dropWhile isReWs = ',' :: ['}'] := by
            rw [List.dropWhile_append, hdw]
            simp [List.dropWhile_cons, isReWs]
          rw [rtcF_succ_comma_nb fuel hdw2 (by decide),
            rtcF_succ_comma_ws fuel hdw, ih xs2 (by omega)]
          rfl
        | cons b r3 =>
          have hdw2 : (xs2 ++ [',', '}']).dropWhile isReWs
              = b :: (r3 ++ [',', '}']) := by
            rw [List.dropWhile_append, hdw]
            simp
          by_cases hb : b = '}' ∨ b = ']'
          · have hr3 : r3.length + 2 ≤ fuel := by
              have hs := (List.dropWhile_suffix isReWs (l := xs2)).length_le
              rw [hdw] at hs
              simp at hs
              omega
            rw [rtcF_succ_comma_bracket fuel hdw2 hb,
              rtcF_succ_comma_bracket fuel hdw hb, ih r3 hr3]
            rfl
          · rw [rtcF_succ_comma_nb fuel hdw2 hb,
              rtcF_succ_comma_nb fuel hdw hb, ih xs2 (by omega)]
            rfl
      · rw [rtcF_succ_cons fuel _ ha, rtcF_succ_cons fuel _ ha, ih xs2 (by omega)]
        rfl

theorem rtc_append_comma_brace (xs : List Char) :
    rtc (xs ++ [',', '}']) = rtc xs ++ ['}'] := by
  show rtcF (xs ++ [',', '}']).length (xs ++ [',', '}']) = rtcF xs.length xs ++ ['}']
  have hlen : (xs ++ [',', '}']).length = xs.length + 2 := by simp
  rw [hlen, rtcF_acb (xs.length + 2) xs le_rfl,
    rtcF_fuel (xs.length + 2) xs.length xs (by omega) le_rfl]

/-! ### Fenced wrapping of a serialized object -/

/-- A response consisting of exactly one fenced ```json block holding `s`. -/
def wrapFence (s : List Char) : List Char :=
  ("```json".toList ++ ('\n' :: (s ++ ['\n']))) ++ "```".toList

theorem findIn_self_pfx (pat t : List Char) (hne : pat ≠ []) :
    findIn pat (pat ++ t) = some 0 := by
  cases pat with
  | nil => exact absurd rfl hne
  | cons c rest =>
    rw [List.cons_append]
    unfold findIn
    rw [show (c :: rest).isPrefixOf (c :: (rest ++ t)) = true from
      List.isPrefixOf_iff_prefix.mpr ⟨t, by simp⟩]
    simp

theorem findIn_marker : ∀ xs t : List Char, '`' ∉ xs →
    findIn ("```".toList) (xs ++ ("```".toList ++ t)) = some xs.length := by
  intro xs
  induction xs with
  | nil =>
    intro t _
    rw [show ([] : List Char) ++ ("```".toList ++ t) = "```".toList ++ t from rfl]
    rw [findIn_self_pfx _ _ (by decide)]
    rfl
  | cons c xs ih =>
    intro t hb
    have hc : ¬ c = '`' := fun he => hb (he ▸ List.mem_cons_self c xs)
    rw [List.cons_append]
    unfold findIn
    rw [show ("```".toList).isPrefixOf (c :: (xs ++ ("```".toList ++ t))) = false
      from by
        simp only [List.isPrefixOf, Bool.and_eq_false_iff]
        left
        simp only [beq_eq_false_iff_ne]
        exact fun h => hc h.symm]
    simp only [Bool.false_eq_true, if_false]
    rw [ih t (fun hm => hb (List.mem_cons_of_mem c hm))]
    rfl

theorem fenceCandidates_wrap (mid : List Char)
    (hbt : '`' ∉ ('{' :: (mid ++ ['}']))) :
    fenceCandidates ("```json".toList) (wrapFence ('{' :: (mid ++ ['}'])))
      = ['{' :: (mid ++ ['}'])] := by
  have hff0 : findFrom ("```json".toList) (wrapFence ('{' :: (mid ++ ['}']))) 0
      = some 0 := by
    unfold findFrom
    rw [List.drop_zero]
    rw [show wrapFence ('{' :: (mid ++ ['}']))
      = "```json".toList ++ (('\n' :: (('{' :: (mid ++ ['}'])) ++ ['\n']))
        ++ "```".toList) from by unfold wrapFence; simp]
    rw [findIn_self_pfx _ _ (by decide)]
    rfl
  have hdrop : (wrapFence ('{' :: (mid ++ ['}']))).drop 7
      = ('\n' :: (('{' :: (mid ++ ['}'])) ++ ['\n'])) ++ "```".toList := by
    rw [show wrapFence ('{' :: (mid ++ ['}']))
      = "```json".toList ++ (('\n' :: (('{' :: (mid ++ ['}'])) ++ ['\n']))
        ++ "```".toList) from by unfold wrapFence; simp]
    exact List.drop_left' (by decide)
  have hnol : '`' ∉ ('\n' :: (('{' :: (mid ++ ['}'])) ++ ['\n'])) := by
    intro hm
    rcases List.mem_cons.mp hm with he | hm2
    · exact absurd he (by decide)
    · rcases List.mem_append.mp hm2 with h3 | h4
      · exact hbt h3
      · simp at h4
  have hml : ('\n' :: (('{' :: (mid ++ ['}'])) ++ ['\n'])).length
      = mid.length + 4 := by simp
  have hff7 : findFrom ("```".toList) (wrapFence ('{' :: (mid ++ ['}']))) 7
      = some (mid.length + 11) := by
    unfold findFrom
    rw [hdrop, show ('\n' :: (('{' :: (mid ++ ['}'])) ++ ['\n'])) ++ "```".toList
      = ('\n' :: (('{' :: (mid ++ ['}'])) ++ ['\n'])) ++ ("```".toList ++ [])
      from by simp]
    rw [findIn_marker _ [] hnol, hml]
    simp
  have hslice : pySlice 7 (mid.length + 11) (wrapFence ('{' :: (mid ++ ['}'])))
      = '\n' :: (('{' :: (mid ++ ['}'])) ++ ['\n']) := by
    unfold pySlice
    have htake : (wrapFence ('{' :: (mid ++ ['}']))).take (mid.length + 11)
        = "```json".toList ++ ('\n' :: (('{' :: (mid ++ ['}'])) ++ ['\n'])) := by
      unfold wrapFence
      exact List.take_left' (by simp)
    rw [htake]
    exact List.drop_left' (by decide)
  have hnorm : normalizeCandidate ('\n' :: (('{' :: (mid ++ ['}'])) ++ ['\n']))
      = '{' :: (mid ++ ['}']) := by
    unfold normalizeCandidate
    simp only []
    rw [trimWs_wrap (by decide) (by decide) (by decide) (by decide)]
    rw [show ("json\n".toList).isPrefixOf
        (('{' :: (mid ++ ['}'])).map Char.toLower) = false from by
      simp only [List.map_cons, List.isPrefixOf, Bool.and_eq_false_iff]
      left
      decide]
    simp
  have hadd : addCandidate ('{' :: (mid ++ ['}'])) = ['{' :: (mid ++ ['}'])] := by
    unfold addCandidate
    rw [trimWs_eq_self (by decide) (by decide)]
    simp
  have hlenw : (wrapFence ('{' :: (mid ++ ['}']))).length = mid.length + 14 := by
    unfold wrapFence
    simp
  unfold fenceCandidates
  rw [hlenw, hff0]
  rw [show mid.length + 14 + 1 = (mid.length + 14) + 1 from rfl]
  unfold harvest
  simp only []
  rw [show 0 + ("```json".toList).length = 7 from rfl, hff7]
  simp only []
  rw [hslice, hnorm, hadd]
  rw [show mid.length + 11 + 3 = mid.length + 14 by omega]
  have hend : findFrom ("```json".toList) (wrapFence ('{' :: (mid ++ ['}'])))
      (mid.length + 14) = none := by
    unfold findFrom
    rw [show (wrapFence ('{' :: (mid ++ ['}']))).drop (mid.length + 14) = [] from by
      apply List.drop_eq_nil_of_le
      rw [hlenw]]
    rfl
  rw [hend, harvest_none]
  simp

theorem extractJson_wrap_first (mid : List Char)
    (hbt : '`' ∉ ('{' :: (mid ++ ['}']))) {v : JVal}
    (htry : tryCandidate ('{' :: (mid ++ ['}'])) = some v) :
    extractJson (wrapFence ('{' :: (mid ++ ['}'])))
      = some v := by
  unfold extractJson
  rw [if_neg (show ¬ (wrapFence ('{' :: (mid ++ ['}']))).isEmpty = true from by
    intro h
    rw [List.isEmpty_iff] at h
    unfold wrapFence at h
    simp at h)]
  unfold candidates
  rw [fenceCandidates_wrap mid hbt]
  rw [show (((['{' :: (mid ++ ['}'])]
        ++ fenceCandidates ("```JSON".toList) (wrapFence ('{' :: (mid ++ ['}']))))
        ++ fenceCandidates ("```".toList) (wrapFence ('{' :: (mid ++ ['}']))))
        ++ addCandidate (normalizeCandidate (wrapFence ('{' :: (mid ++ ['}'])))))
        ++ braceSliceCandidate (wrapFence ('{' :: (mid ++ ['}'])))
      = ('{' :: (mid ++ ['}'])) ::
        (((fenceCandidates ("```JSON".toList) (wrapFence ('{' :: (mid ++ ['}'])))
        ++ fenceCandidates ("```".toList) (wrapFence ('{' :: (mid ++ ['}']))))
        ++ addCandidate (normalizeCandidate (wrapFence ('{' :: (mid ++ ['}'])))))
        ++ braceSliceCandidate (wrapFence ('{' :: (mid ++ ['}'])))) from by simp]
  unfold firstSome
  rw [htry]

/-- The object whose string values contain backtick fences; its serialization
confuses the fence-pairing loop of `extract_json`. -/
def fencePairCexObj : JVal :=
  .obj [("a".toList, .str ("```".toList)), ("b".toList, .str ("```[9]```".toList))]

/-- C6 (counterexample): the frozen claim says every JSON object serialized
inside a fenced ```json block is returned exactly.  For an object whose string
values themselves contain ``` sequences, the fence-scanning loop pairs the
wrong markers: the bare-``` pass extracts the text between the second and third
perceived fence, `[9]`, which parses first, so `extract_json` returns the array
`[9]` instead of the serialized object. -/
theorem extract_json_fenced_roundtrip_cex :
    wfJ fencePairCexObj = true ∧
    extractJson (wrapFence (dumps fencePairCexObj)) = some (.arr [.num 9]) ∧
    ¬ extractJson (wrapFence (dumps fencePairCexObj)) = some fencePairCexObj := by
  refine ⟨by rfl, by rfl, ?_⟩
  intro h
  have h2 : some (JVal.arr [.num 9]) = some fencePairCexObj :=
    (show extractJson (wrapFence (dumps fencePairCexObj))
      = some (.arr [.num 9]) from rfl).symm.trans h
  exact JVal.noConfusion (Option.some.inj h2)

/-- C6 (amended): for a nonempty well-formed object whose serialization
contains no backtick and is untouched by the trailing-comma regex,
`extract_json` on the fenced serialization returns exactly that object, and on
the fenced serialization with a single trailing comma inserted before the
closing brace it recovers the same object (the verbatim parse fails and the
trailing-comma repair restores the comma-free serialization). -/
theorem extract_json_fenced_roundtrip (ps : List (List Char × JVal))
    (hne : ps ≠ [])
    (hwf : wfJ (JVal.obj ps) = true)
    (hbt : '`' ∉ dumps (JVal.obj ps))
    (hrtc : rtc ('{' :: dumpsMembers ps) = '{' :: dumpsMembers ps) :
    extractJson (wrapFence (dumps (JVal.obj ps))) = some (JVal.obj ps) ∧
    extractJson (wrapFence ('{' :: (dumpsMembers ps ++ [',', '}'])))
      = some (JVal.obj ps) := by
  have hwfm : wfMembers ps = true := hwf
  constructor
  · have hbt1 : '`' ∉ ('{' :: (dumpsMembers ps ++ ['}'])) := hbt
    have htry : tryCandidate ('{' :: (dumpsMembers ps ++ ['}']))
        = some (JVal.obj ps) := by
      unfold tryCandidate
      rw [show ('{' :: (dumpsMembers ps ++ ['}'])) = dumps (JVal.obj ps) from rfl,
        loads_dumps _ hwf]
    exact extractJson_wrap_first (dumpsMembers ps) hbt1 htry
  · have hbt2 : '`' ∉ ('{' :: ((dumpsMembers ps ++ [',']) ++ ['}'])) := by
      intro hm
      simp at hm
      exact hbt (show '`' ∈ '{' :: (dumpsMembers ps ++ ['}']) from
        List.mem_cons_of_mem _ (List.mem_append_left _ hm))
    have htry2 : tryCandidate ('{' :: ((dumpsMembers ps ++ [',']) ++ ['}']))
        = some (JVal.obj ps) := by
      unfold tryCandidate
      rw [show ('{' :: ((dumpsMembers ps ++ [',']) ++ ['}']))
        = '{' :: (dumpsMembers ps ++ [',', '}']) from by simp]
      rw [loads_comma_none ps hne hwfm]
      have hr : rtc ('{' :: (dumpsMembers ps ++ [',', '}']))
          = rtc ('{' :: dumpsMembers ps) ++ ['}'] :=
        rtc_append_comma_brace ('{' :: dumpsMembers ps)
      rw [hr, hrtc,
        show ('{' :: dumpsMembers ps) ++ ['}'] = dumps (JVal.obj ps) from rfl,
        loads_dumps _ hwf]
    have h := extractJson_wrap_first (dumpsMembers ps ++ [',']) hbt2 htry2
    rw [show ('{' :: ((dumpsMembers ps ++ [',']) ++ ['}']))
      = '{' :: (dumpsMembers ps ++ [',', '}']) from by simp] at h
    exact h

/-- Witness: the one-member object `\x7b"a": 1\x7d` satisfies the amended
hypotheses; both the fenced serialization and its trailing-comma variant
extract back to the object. -/
theorem extract_json_fenced_roundtrip_witness :
    ([(("a".toList : List Char), JVal.num 1)] ≠ []) ∧
    wfJ (JVal.obj [("a".toList, JVal.num 1)]) = true ∧
    '`' ∉ dumps (JVal.obj [("a".toList, JVal.num 1)]) ∧
    rtc ('{' :: dumpsMembers [("a".toList, JVal.num 1)])
      = '{' :: dumpsMembers [("a".toList, JVal.num 1)] ∧
    (extractJson (wrapFence (dumps (JVal.obj [("a".toList, JVal.num 1)])))
      = some (JVal.obj [("a".toList, JVal.num 1)]) ∧
    extractJson (wrapFence ('{' ::
        (dumpsMembers [("a".toList, JVal.num 1)] ++ [',', '}'])))
      = some (JVal.obj [("a".toList, JVal.num 1)])) :=
  ⟨List.cons_ne_nil _ _, by rfl,
    by
      rw [show dumps (JVal.obj [("a".toList, JVal.num 1)])
        = "\x7b\"a\": 1\x7d".toList from rfl]
      decide,
    by
      rw [show dumpsMembers [(("a".toList : List Char), JVal.num 1)]
        = "\"a\": 1".toList from rfl]
      decide,
    extract_json_fenced_roundtrip [("a".toList, JVal.num 1)]
      (List.cons_ne_nil _ _) (by rfl)
      (by
        rw [show dumps (JVal.obj [("a".toList, JVal.num 1)])
          = "\x7b\"a\": 1\x7d".toList from rfl]
        decide)
      (by
        rw [show dumpsMembers [(("a".toList : List Char), JVal.num 1)]
          = "\"a\": 1".toList from rfl]
        decide)⟩

/-! ## `build_context` (context_builder.py, lines 215-305)

The filesystem enumeration is abstracted into a list of entries: `ok` collapses
the eligibility checks (directory exclusion, extension filter, existence,
readability), `size` is the on-disk byte size.  Paths are taken to be ASCII, so
the UTF-8 byte length of the header `"\n--- rel_path ---\n"` is its character
count, ten more than the path length. -/

structure FileEntry where
  path : List Char
  ok : Bool
  size : Nat

structure CtxConfig where
  maxTotal : Nat
  maxFile : Nat
  maxFiles : Nat

def headerLen (p : List Char) : Nat := p.length + 10

/-- The processing loop of `build_context` (lines 256-295): the budget check at
the top of each iteration, the ineligibility `continue`s, the capped read
(`read_limit = min(max_file_bytes, max_total_bytes - total_bytes)`), and the
accumulation `total_bytes += len(header) + len(data)`. -/
def ctxLoop : List FileEntry → CtxConfig → List (List Char) → Nat →
    (List (List Char) × Nat)
  | [], _, inc, tot => (inc, tot)
  | f :: rest, cfg, inc, tot =>
    if cfg.maxFiles ≤ inc.length ∨ cfg.maxTotal ≤ tot then (inc, tot)
    else if f.ok = false then ctxLoop rest cfg inc tot
    else
      let readLimit := min cfg.maxFile (cfg.maxTotal - tot)
      let dataLen := min f.size readLimit
      ctxLoop rest cfg (inc ++ [f.path]) (tot + (headerLen f.path + dataLen))

/-- `build_context`: included files, reported `total_bytes`, and the
`truncated` flag (lines 297-304). -/
def buildContext (fs : List FileEntry) (cfg : CtxConfig) :
    List (List Char) × Nat × Bool :=
  let r := ctxLoop fs cfg [] 0
  (r.1, r.2, decide (cfg.maxTotal ≤ r.2) || decide (cfg.maxFiles ≤ r.1.length))

theorem ctxLoop_grows : ∀ fs : List FileEntry, ∀ cfg inc tot,
    inc <+: (ctxLoop fs cfg inc tot).1 := by
  intro fs
  induction fs with
  | nil => intro cfg inc tot; exact List.prefix_refl inc
  | cons f rest ih =>
    intro cfg inc tot
    unfold ctxLoop
    split
    · exact List.prefix_refl inc
    · split
      · exact ih cfg inc tot
      · simp only []
        exact (List.prefix_append inc [f.path]).trans (ih cfg _ _)

theorem ctxLoop_count : ∀ fs : List FileEntry, ∀ cfg inc tot,
    inc.length ≤ cfg.maxFiles →
    (ctxLoop fs cfg inc tot).1.length ≤ cfg.maxFiles := by
  intro fs
  induction fs with
  | nil => intro cfg inc tot h; exact h
  | cons f rest ih =>
    intro cfg inc tot h
    unfold ctxLoop
    split
    · exact h
    · rename_i hguard
      split
      · exact ih cfg inc tot h
      · simp only []
        refine ih cfg _ _ ?_
        have hlt : inc.length < cfg.maxFiles := by
          rcases Nat.lt_or_ge inc.length cfg.maxFiles with h1 | h1
          · exact h1
          · exact absurd (Or.inl h1) hguard
        simp
        omega

theorem ctxLoop_total : ∀ fs : List FileEntry, ∀ cfg inc tot, ∀ b : Nat,
    (∀ f ∈ fs, headerLen f.path ≤ b) →
    tot ≤ cfg.maxTotal + b →
    (ctxLoop fs cfg inc tot).2 ≤ cfg.maxTotal + b := by
  intro fs
  induction fs with
  | nil => intro cfg inc tot b _ h; exact h
  | cons f rest ih =>
    intro cfg inc tot b hb h
    unfold ctxLoop
    split
    · exact h
    · rename_i hguard
      split
      · exact ih cfg inc tot b (fun g hg => hb g (List.mem_cons_of_mem f hg)) h
      · simp only []
        refine ih cfg _ _ b (fun g hg => hb g (List.mem_cons_of_mem f hg)) ?_
        have hlt : tot < cfg.maxTotal := by
          rcases Nat.lt_or_ge tot cfg.maxTotal with h1 | h1
          · exact h1
          · exact absurd (Or.inr h1) hguard
        have hhd : headerLen f.path ≤ b := hb f (List.mem_cons_self f rest)
        have hdata : min f.size (min cfg.maxFile (cfg.maxTotal - tot))
            ≤ cfg.maxTotal - tot := le_trans (Nat.min_le_right _ _)
          (Nat.min_le_right _ _)
        omega

theorem ctxLoop_skipped_truncated : ∀ fs : List FileEntry, ∀ cfg inc tot,
    ∀ f ∈ fs, f.ok = true → f.path ∉ (ctxLoop fs cfg inc tot).1 →
    cfg.maxTotal ≤ (ctxLoop fs cfg inc tot).2 ∨
      cfg.maxFiles ≤ (ctxLoop fs cfg inc tot).1.length := by
  intro fs
  induction fs with
  | nil => intro cfg inc tot f hf; simp at hf
  | cons g rest ih =>
    intro cfg inc tot f hf hok hnin
    rcases List.mem_cons.mp hf with he | hm
    · subst he
      revert hnin
      unfold ctxLoop
      split
      · rename_i hguard
        intro _
        rcases hguard with h1 | h1
        · exact Or.inr h1
        · exact Or.inl h1
      · split
        · rename_i hko
          rw [hok] at hko
          exact absurd hko (by simp)
        · simp only []
          intro hnin
          exact absurd ((ctxLoop_grows rest cfg _ _).subset
            (List.mem_append_right inc (List.mem_singleton.mpr rfl))) hnin
    · revert hnin
      unfold ctxLoop
      split
      · rename_i hguard
        intro _
        rcases hguard with h1 | h1
        · exact Or.inr h1
        · exact Or.inl h1
      · split
        · intro hnin
          exact ih cfg inc tot f hm hok hnin
        · simp only []
          intro hnin
          exact ih cfg _ _ f hm hok hnin

/-- C7 (counterexample): the frozen claim says the reported `total_bytes`
never exceeds `max_total_bytes`.  With a 10-byte total budget and a single
100-byte eligible file `a.py`, the read is capped at 10 bytes but the
14-byte header is then added in full: `total_bytes` = 24 > 10. -/
theorem build_context_total_cex :
    (buildContext [⟨"a.py".toList, true, 100⟩] ⟨10, 1000, 5⟩).2.1 = 24 ∧
    10 < (buildContext [⟨"a.py".toList, true, 100⟩] ⟨10, 1000, 5⟩).2.1 := by
  constructor <;> decide

/-- C7 (amended): `build_context` includes at most `max_files` files; the
reported `total_bytes` can overshoot `max_total_bytes`, but only by the header
of the last included file (at most `b` when every header is at most `b`); and
whenever an eligible file was left out, the `truncated` flag is set. -/
theorem build_context_budgets (fs : List FileEntry) (cfg : CtxConfig) (b : Nat)
    (hb : ∀ f ∈ fs, headerLen f.path ≤ b) :
    (buildContext fs cfg).1.length ≤ cfg.maxFiles ∧
    (buildContext fs cfg).2.1 ≤ cfg.maxTotal + b ∧
    (∀ f ∈ fs, f.ok = true → f.path ∉ (buildContext fs cfg).1 →
      (buildContext fs cfg).2.2 = true) := by
  refine ⟨ctxLoop_count fs cfg [] 0 (by simp), ctxLoop_total fs cfg [] 0 b hb (by omega), ?_⟩
  intro f hf hok hnin
  have h := ctxLoop_skipped_truncated fs cfg [] 0 f hf hok hnin
  show (decide (cfg.maxTotal ≤ (ctxLoop fs cfg [] 0).2)
    || decide (cfg.maxFiles ≤ (ctxLoop fs cfg [] 0).1.length)) = true
  rcases h with h1 | h1
  · rw [decide_eq_true h1]
    rfl
  · rw [decide_eq_true h1]
    simp

/-- Witness: one eligible oversized file against a tiny budget; the file count
and header-slack byte bound hold and the flag is set for any crowded-out
file. -/
theorem build_context_budgets_witness :
    (∀ f ∈ [(⟨"a.py".toList, true, 100⟩ : FileEntry)], headerLen f.path ≤ 14) ∧
    ((buildContext [(⟨"a.py".toList, true, 100⟩ : FileEntry)]
        ⟨10, 1000, 5⟩).1.length ≤ 5 ∧
      (buildContext [(⟨"a.py".toList, true, 100⟩ : FileEntry)]
        ⟨10, 1000, 5⟩).2.1 ≤ 10 + 14 ∧
      (∀ f ∈ [(⟨"a.py".toList, true, 100⟩ : FileEntry)], f.ok = true →
        f.path ∉ (buildContext [(⟨"a.py".toList, true, 100⟩ : FileEntry)]
          ⟨10, 1000, 5⟩).1 →
        (buildContext [(⟨"a.py".toList, true, 100⟩ : FileEntry)]
          ⟨10, 1000, 5⟩).2.2 = true)) :=
  ⟨by decide, build_context_budgets [⟨"a.py".toList, true, 100⟩] ⟨10, 1000, 5⟩ 14
    (by decide)⟩

/-! ## `save_file` / `safe_save_file` (dialectical_loop.py, lines 310-342)

The filesystem is abstracted as an association list from paths to contents.
`save_file`'s fallible steps are driven by a failure oracle `failAt`:
stage 0 = `makedirs`/`_ensure_writable`/`mkstemp` raising before the temp file
exists; stage 1 = the write to the temp file raising; stage 2 = the second
`_ensure_writable` raising; stage 3 = `os.replace` raising.  The `finally`
block removes the temp file whenever it still exists.  `os.replace` is the
single atomic rename.  `mkstemp` guarantees a fresh name, modelled by the
hypothesis that the temp path differs from the target. -/

def FS : Type := List (List Char × List Char)

def fsErase (fs : FS) (p : List Char) : FS :=
  List.filter (fun e => !(e.1 == p)) fs

def fsSet (fs : FS) (p v : List Char) : FS := (p, v) :: fsErase fs p

def fsGet (fs : FS) (p : List Char) : Option (List Char) :=
  (List.find? (fun e => e.1 == p) fs).map (fun e => e.2)

/-- `safe_save_file`: the success flag and the resulting filesystem. -/
def saveFile (fs : FS) (path tmp content : List Char) (failAt : Option Nat) :
    Bool × FS :=
  if failAt = some 0 then (false, fs)
  else
    let fs1 := fsSet fs tmp []
    if failAt = some 1 then (false, fsErase fs1 tmp)
    else
      let fs2 := fsSet fs1 tmp content
      if failAt = some 2 then (false, fsErase fs2 tmp)
      else if failAt = some 3 then (false, fsErase fs2 tmp)
      else (true, fsSet (fsErase fs2 tmp) path content)

theorem fsGet_set_self (fs : FS) (p v : List Char) :
    fsGet (fsSet fs p v) p = some v := by
  unfold fsGet fsSet
  rw [List.find?_cons_of_pos _ (by simp)]
  rfl

theorem fsGet_erase_other {q p : List Char} (hne : ¬ q = p) :
    ∀ fs : FS, fsGet (fsErase fs q) p = fsGet fs p := by
  intro fs
  induction fs with
  | nil => rfl
  | cons e rest ih =>
    unfold fsGet fsErase
    by_cases hep : e.1 = p
    · have heq : ¬ e.1 = q := fun h => hne (h ▸ hep.symm ▸ rfl)
      rw [List.filter_cons_of_pos (by simp [heq]),
        List.find?_cons_of_pos _ (by simp [hep]),
        List.find?_cons_of_pos _ (by simp [hep])]
    · by_cases heq : e.1 = q
      · rw [List.filter_cons_of_neg (by simp [heq]),
          List.find?_cons_of_neg _ (by simp [hep])]
        exact ih
      · rw [List.filter_cons_of_pos (by simp [heq]),
          List.find?_cons_of_neg _ (by simp [hep]),
          List.find?_cons_of_neg _ (by simp [hep])]
        exact ih

theorem fsGet_set_other {q p : List Char} (hne : ¬ q = p) (fs : FS)
    (v : List Char) : fsGet (fsSet fs q v) p = fsGet fs p := by
  unfold fsSet
  show fsGet ((q, v) :: fsErase fs q) p = fsGet fs p
  unfold fsGet
  rw [List.find?_cons_of_neg _ (by simp [hne])]
  exact fsGet_erase_other hne fs

/-- C9: `save_file` writes the full content to a temp file and installs it in
one rename; any failure before the rename leaves the target's pre-existing
content unchanged and makes `safe_save_file` report failure; the target is
always either fully old or fully new. -/
theorem save_file_atomic (fs : FS) (path tmp content : List Char)
    (hne : ¬ tmp = path) (failAt : Option Nat) :
    ((saveFile fs path tmp content failAt).1 = true →
      fsGet (saveFile fs path tmp content failAt).2 path = some content) ∧
    ((saveFile fs path tmp content failAt).1 = false →
      fsGet (saveFile fs path tmp content failAt).2 path = fsGet fs path) ∧
    (fsGet (saveFile fs path tmp content failAt).2 path = fsGet fs path ∨
      fsGet (saveFile fs path tmp content failAt).2 path = some content) := by
  unfold saveFile
  simp only []
  split
  · exact ⟨fun h => absurd h (by simp), fun _ => rfl, Or.inl rfl⟩
  · split
    · have hval : fsGet (fsErase (fsSet fs tmp []) tmp) path = fsGet fs path := by
        rw [fsGet_erase_other hne, fsGet_set_other hne]
      exact ⟨fun h => absurd h (by simp), fun _ => hval, Or.inl hval⟩
    · split
      · have hval : fsGet (fsErase (fsSet (fsSet fs tmp []) tmp content) tmp) path
            = fsGet fs path := by
          rw [fsGet_erase_other hne, fsGet_set_other hne, fsGet_set_other hne]
        exact ⟨fun h => absurd h (by simp), fun _ => hval, Or.inl hval⟩
      · split
        · have hval : fsGet (fsErase (fsSet (fsSet fs tmp []) tmp content) tmp) path
              = fsGet fs path := by
            rw [fsGet_erase_other hne, fsGet_set_other hne, fsGet_set_other hne]
          exact ⟨fun h => absurd h (by simp), fun _ => hval, Or.inl hval⟩
        · have hval : fsGet (fsSet (fsErase (fsSet (fsSet fs tmp []) tmp content)
              tmp) path content) path = some content := fsGet_set_self _ _ _
          exact ⟨fun _ => hval, fun h => absurd h (by simp), Or.inr hval⟩

/-- Witness: target `a.txt` holding `old`; the temp write fails (stage 1); the
result reports failure and `a.txt` still holds `old`. -/
theorem save_file_atomic_witness :
    (¬ ("tmp9".toList) = ("a.txt".toList)) ∧
    (((saveFile [(("a.txt".toList), ("old".toList))] ("a.txt".toList)
        ("tmp9".toList) ("new".toList) (some 1)).1 = true →
      fsGet (saveFile [(("a.txt".toList), ("old".toList))] ("a.txt".toList)
        ("tmp9".toList) ("new".toList) (some 1)).2 ("a.txt".toList)
        = some ("new".toList)) ∧
    ((saveFile [(("a.txt".toList), ("old".toList))] ("a.txt".toList)
        ("tmp9".toList) ("new".toList) (some 1)).1 = false →
      fsGet (saveFile [(("a.txt".toList), ("old".toList))] ("a.txt".toList)
        ("tmp9".toList) ("new".toList) (some 1)).2 ("a.txt".toList)
        = fsGet [(("a.txt".toList), ("old".toList))] ("a.txt".toList)) ∧
    (fsGet (saveFile [(("a.txt".toList), ("old".toList))] ("a.txt".toList)
        ("tmp9".toList) ("new".toList) (some 1)).2 ("a.txt".toList)
        = fsGet [(("a.txt".toList), ("old".toList))] ("a.txt".toList) ∨
      fsGet (saveFile [(("a.txt".toList), ("old".toList))] ("a.txt".toList)
        ("tmp9".toList) ("new".toList) (some 1)).2 ("a.txt".toList)
        = some ("new".toList))) :=
  ⟨by decide, save_file_atomic [(("a.txt".toList), ("old".toList))]
    ("a.txt".toList) ("tmp9".toList) ("new".toList) (by decide) (some 1)⟩

end Dialectic
